import Mathlib

/-!
Verification development for the numerical core of the BacaAlquran repository
(src/wasm/hmm.cpp, src/wasm/dtw.cpp, src/wasm/audio_processor.cpp).

The C++ code works on `double`; the embedding models doubles as real numbers
(exact arithmetic) and models `+infinity` in the DTW component as the top
element of `WithTop Real`.  Machine integers are modelled as `Int` (indices
that the code may drive negative) or `Nat` (sizes).  Every array subscript the
C++ code performs is modelled as a checked access in the `Option` monad:
`none` means the C++ program performed an out-of-bounds vector subscript
(undefined behaviour).  In-place vector mutation becomes explicit state
passing through folds in the `Option` monad.
-/

/-! ## Generic checked-access combinators -/

/-- Checked read at an `Int` index (C++ `v[i]` with `int i`): out of range,
including any negative index, is undefined behaviour, modelled as `none`. -/
def getIdxInt? {α : Type} (l : List α) (i : ℤ) : Option α :=
  if 0 ≤ i then l.get? i.toNat else none

/-- Checked write at a `Nat` index. -/
def setIdx? {α : Type} (l : List α) (i : ℕ) (v : α) : Option (List α) :=
  if i < l.length then some (l.set i v) else none

/-- Checked write at an `Int` index. -/
def setIdxInt? {α : Type} (l : List α) (i : ℤ) (v : α) : Option (List α) :=
  if 0 ≤ i then setIdx? l i.toNat v else none

/-- Sequential loop over a list, threading state through the `Option` monad;
`none` aborts, modelling the point where the C++ loop would have performed an
out-of-bounds access. -/
def ofold {α β : Type} (f : β → α → Option β) : List α → β → Option β
  | [], b => some b
  | a :: as, b => (f b a).bind (ofold f as)

/-- Build one output element per input element, aborting on `none`
(the shape of a C++ loop writing `out[k] = ...` for each `k`). -/
def omap {α β : Type} (f : α → Option β) : List α → Option (List β)
  | [] => some []
  | a :: as => (f a).bind fun b => (omap f as).map (b :: ·)

/-- Accumulating sum `acc += f a` over a list, with checked element
computations. -/
def osum {α : Type} (f : α → Option ℝ) (l : List α) (acc : ℝ) : Option ℝ :=
  ofold (fun s a => (f a).map (s + ·)) l acc

theorem ofold_append {α β : Type} (f : β → α → Option β) (l₁ l₂ : List α) (b : β) :
    ofold f (l₁ ++ l₂) b = (ofold f l₁ b).bind (fun b' => ofold f l₂ b') := by
  induction l₁ generalizing b with
  | nil => simp [ofold]
  | cons a as ih =>
    simp only [List.cons_append, ofold]
    cases f b a with
    | none => simp
    | some b' => simp [ih]

theorem ofold_some_of {α β : Type} {P : β → Prop} {f : β → α → Option β} {l : List α} {b : β}
    (hb : P b) (hstep : ∀ b' a, P b' → a ∈ l → ∃ b'', f b' a = some b'' ∧ P b'') :
    ∃ b'', ofold f l b = some b'' ∧ P b'' := by
  induction l generalizing b with
  | nil => exact ⟨b, rfl, hb⟩
  | cons a as ih =>
    obtain ⟨b', hfa, hb'⟩ := hstep b a hb (List.mem_cons_self a as)
    obtain ⟨b'', hrec, hb''⟩ := ih hb' (fun c x hc hx => hstep c x hc (List.mem_cons_of_mem a hx))
    exact ⟨b'', by simp [ofold, hfa, hrec], hb''⟩

theorem omap_eq_map_of {α β : Type} {f : α → Option β} {g : α → β} {l : List α}
    (h : ∀ a ∈ l, f a = some (g a)) : omap f l = some (l.map g) := by
  induction l with
  | nil => rfl
  | cons a as ih =>
    simp [omap, h a (List.mem_cons_self a as),
      ih (fun x hx => h x (List.mem_cons_of_mem a hx))]

theorem omap_some_of {α β : Type} {f : α → Option β} {l : List α}
    (h : ∀ a ∈ l, (f a).isSome) : ∃ r, omap f l = some r ∧ r.length = l.length := by
  induction l with
  | nil => exact ⟨[], rfl, rfl⟩
  | cons a as ih =>
    obtain ⟨b, hb⟩ := Option.isSome_iff_exists.mp (h a (List.mem_cons_self a as))
    obtain ⟨r, hr, hlen⟩ := ih (fun x hx => h x (List.mem_cons_of_mem a hx))
    exact ⟨b :: r, by simp [omap, hb, hr], by simp [hlen]⟩

theorem omap_none_head {α β : Type} {f : α → Option β} {a : α} {l : List α}
    (h : f a = none) : omap f (a :: l) = none := by
  simp [omap, h]

/-! ## HMM component (src/wasm/hmm.cpp) -/

/-- C++ constant: very small log probability representing zero. -/
def LOG_ZERO : ℝ := -1e30

/-- Log-sum-exp trick, translated from `log_sum_exp` in hmm.cpp:
take the maximum, early-return on an all-`LOG_ZERO` maximum, and sum
`exp (val - max)` over the values different from `LOG_ZERO`. -/
noncomputable def log_sum_exp (log_values : List ℝ) : ℝ :=
  match log_values with
  | [] => LOG_ZERO
  | x :: xs =>
    let max_val := xs.foldl max x
    if max_val = LOG_ZERO then LOG_ZERO
    else
      max_val +
        Real.log ((x :: xs).foldl
          (fun s v => if v ≠ LOG_ZERO then s + Real.exp (v - max_val) else s) 0)

/-- The HMM state: sizes fixed at construction, three log-probability tables. -/
structure HMM where
  num_states : ℕ
  num_observations : ℕ
  transition_probs : List (List ℝ)
  emission_probs : List (List ℝ)
  initial_probs : List ℝ

/-- The `HMM(states, observations)` constructor: all tables filled with
`LOG_ZERO`. -/
def HMM.init (states observations : ℕ) : HMM :=
  { num_states := states
    num_observations := observations
    transition_probs := List.replicate states (List.replicate states LOG_ZERO)
    emission_probs := List.replicate states (List.replicate observations LOG_ZERO)
    initial_probs := List.replicate states LOG_ZERO }

/-- Table dimensions match the construction-time sizes. -/
def HMM.WF (h : HMM) : Prop :=
  h.transition_probs.length = h.num_states ∧
  (∀ r ∈ h.transition_probs, r.length = h.num_states) ∧
  h.emission_probs.length = h.num_states ∧
  (∀ r ∈ h.emission_probs, r.length = h.num_observations) ∧
  h.initial_probs.length = h.num_states

theorem HMM.init_wf (states observations : ℕ) : (HMM.init states observations).WF := by
  refine ⟨by simp [HMM.init], ?_, by simp [HMM.init], ?_, by simp [HMM.init]⟩ <;>
    intro r hr <;> simp only [HMM.init] at hr ⊢ <;>
    rw [List.eq_of_mem_replicate hr, List.length_replicate]

/-- `HMM::setTransitionProb`: guard `prob > 0 && from_state < N && to_state < N`
(no lower bound on the indices), then write `log prob`. -/
noncomputable def HMM.setTransitionProb (h : HMM) (from_state to_state : ℤ) (prob : ℝ) :
    Option HMM :=
  if prob > 0 ∧ from_state < (h.num_states : ℤ) ∧ to_state < (h.num_states : ℤ) then do
    let row ← getIdxInt? h.transition_probs from_state
    let row' ← setIdxInt? row to_state (Real.log prob)
    let t ← setIdxInt? h.transition_probs from_state row'
    pure { h with transition_probs := t }
  else pure h

/-- `HMM::setEmissionProb`: guard `prob > 0 && state < N && observation < K`. -/
noncomputable def HMM.setEmissionProb (h : HMM) (state observation : ℤ) (prob : ℝ) :
    Option HMM :=
  if prob > 0 ∧ state < (h.num_states : ℤ) ∧ observation < (h.num_observations : ℤ) then do
    let row ← getIdxInt? h.emission_probs state
    let row' ← setIdxInt? row observation (Real.log prob)
    let t ← setIdxInt? h.emission_probs state row'
    pure { h with emission_probs := t }
  else pure h

/-- `HMM::setInitialProb`: guard `prob > 0 && state < N`. -/
noncomputable def HMM.setInitialProb (h : HMM) (state : ℤ) (prob : ℝ) : Option HMM :=
  if prob > 0 ∧ state < (h.num_states : ℤ) then do
    let t ← setIdxInt? h.initial_probs state (Real.log prob)
    pure { h with initial_probs := t }
  else pure h

/-- First column of the Viterbi/forward table (`t = 0` initialisation):
`table[0][s] = initial_probs[s] + emission_probs[s][obs[0]]` guarded only by
`obs[0] < num_observations`. -/
noncomputable def initColV (h : HMM) (o0 : ℤ) : Option (List ℝ) :=
  omap (fun s =>
    if o0 < (h.num_observations : ℤ) then do
      let p ← h.initial_probs.get? s
      let row ← h.emission_probs.get? s
      let b ← getIdxInt? row o0
      pure (p + b)
    else pure LOG_ZERO) (List.range h.num_states)

/-- One Viterbi fill step (`t ≥ 1`): a column skipped by
`observations[t] >= num_observations` keeps its initial `LOG_ZERO` values and
`-1` backpointers; otherwise each state takes the max over predecessors,
strictly-greater replacing. -/
noncomputable def viterbiStep (h : HMM) (prev : List ℝ) (o : ℤ) :
    Option (List ℝ × List ℤ) :=
  if (h.num_observations : ℤ) ≤ o then
    pure (List.replicate h.num_states LOG_ZERO, List.replicate h.num_states (-1))
  else do
    let pairs ← omap (fun s => do
      let row ← h.emission_probs.get? s
      ofold (fun (acc : ℝ × ℤ) prev_s => do
        let vp ← prev.get? prev_s
        let arow ← h.transition_probs.get? prev_s
        let a ← arow.get? s
        let b ← getIdxInt? row o
        pure (if vp + a + b > acc.1 then (vp + a + b, (prev_s : ℤ)) else acc))
        (List.range h.num_states) (LOG_ZERO, -1)) (List.range h.num_states)
    pure (pairs.map Prod.fst, pairs.map Prod.snd)

/-- Column `t` of the Viterbi tables: the probability column and the
backpointer column (`path[0][s]` is never written and stays `-1`). -/
noncomputable def viterbiCols (h : HMM) (obs : List ℤ) : ℕ → Option (List ℝ × List ℤ)
  | 0 => (initColV h (obs.getD 0 0)).map (fun c => (c, List.replicate h.num_states (-1)))
  | t + 1 => (viterbiCols h obs t).bind (fun pc => viterbiStep h pc.1 (obs.getD (t + 1) 0))

/-- The backtracking loop after `d` steps: `best_path[t] = path[t+1][best_path[t+1]]`,
a checked access since `best_path[t+1]` may be `-1`. -/
noncomputable def viterbiBack (h : HMM) (obs : List ℤ) (bf : ℤ) : ℕ → Option (ℤ × List ℤ)
  | 0 => pure (bf, [bf])
  | d + 1 => do
    let st ← viterbiBack h obs bf d
    let col ← viterbiCols h obs (obs.length - 1 - d)
    let nb ← getIdxInt? col.2 st.1
    pure (nb, nb :: st.2)

/-- `HMM::viterbi`: fill the table, take the argmax of the final column
(strictly-greater replaces, starting from `best_final_state = 0`), backtrack. -/
noncomputable def viterbi (h : HMM) (obs : List ℤ) : Option (List ℤ) :=
  if obs.length = 0 then pure []
  else do
    let lastCol ← (viterbiCols h obs (obs.length - 1)).map Prod.fst
    let fin ← ofold (fun (acc : ℝ × ℤ) s =>
      (lastCol.get? s).map (fun v => if v > acc.1 then (v, (s : ℤ)) else acc))
      (List.range h.num_states) (LOG_ZERO, 0)
    let res ← viterbiBack h obs fin.2 (obs.length - 1)
    pure res.2

/-- One forward-pass step (`t ≥ 1`), mirroring `HMM::forward`. -/
noncomputable def forwardStep (h : HMM) (prev : List ℝ) (o : ℤ) : Option (List ℝ) :=
  if (h.num_observations : ℤ) ≤ o then pure (List.replicate h.num_states LOG_ZERO)
  else omap (fun s => do
    let lp ← omap (fun prev_s => do
      let vp ← prev.get? prev_s
      let arow ← h.transition_probs.get? prev_s
      let a ← arow.get? s
      pure (vp + a)) (List.range h.num_states)
    let row ← h.emission_probs.get? s
    let b ← getIdxInt? row o
    pure (log_sum_exp lp + b)) (List.range h.num_states)

/-- Column `t` of the forward table `alpha`. -/
noncomputable def alphaCol (h : HMM) (obs : List ℤ) : ℕ → Option (List ℝ)
  | 0 => initColV h (obs.getD 0 0)
  | t + 1 => (alphaCol h obs t).bind (fun prev => forwardStep h prev (obs.getD (t + 1) 0))

/-- `HMM::forward`: log-sum-exp of the last column. -/
noncomputable def forward (h : HMM) (obs : List ℤ) : Option ℝ :=
  if obs.length = 0 then pure LOG_ZERO
  else (alphaCol h obs (obs.length - 1)).map log_sum_exp

/-- Column `T-1-d` of the backward table `beta`; the loop skips (leaves at
`LOG_ZERO`) any column whose successor symbol `obs[t+1]` is `≥ num_observations`. -/
noncomputable def betaColAux (h : HMM) (obs : List ℤ) : ℕ → Option (List ℝ)
  | 0 => pure (List.replicate h.num_states 0)
  | d + 1 => (betaColAux h obs d).bind (fun nxt =>
      let o := obs.getD (obs.length - 1 - d) 0
      if (h.num_observations : ℤ) ≤ o then pure (List.replicate h.num_states LOG_ZERO)
      else omap (fun s => do
        let arow ← h.transition_probs.get? s
        let lp ← omap (fun next_s => do
          let a ← arow.get? next_s
          let brow ← h.emission_probs.get? next_s
          let b ← getIdxInt? brow o
          let bv ← nxt.get? next_s
          pure (a + b + bv)) (List.range h.num_states)
        pure (log_sum_exp lp)) (List.range h.num_states))

/-- `HMM::backward`: entries pushed for states only when `obs[0] < K`,
then log-sum-exp of whatever was pushed. -/
noncomputable def backward (h : HMM) (obs : List ℤ) : Option ℝ :=
  if obs.length = 0 then pure LOG_ZERO
  else do
    let beta0 ← betaColAux h obs (obs.length - 1)
    let ps ← ofold (fun (acc : List ℝ) s =>
      if obs.getD 0 0 < (h.num_observations : ℤ) then do
        let p ← h.initial_probs.get? s
        let row ← h.emission_probs.get? s
        let b ← getIdxInt? row (obs.getD 0 0)
        let bv ← beta0.get? s
        pure (acc ++ [p + b + bv])
      else pure acc) (List.range h.num_states) []
    pure (log_sum_exp ps)

/-! ## Log-sum-exp properties -/

theorem foldl_max_all_log_zero (xs : List ℝ) (x : ℝ) (hx : x = LOG_ZERO)
    (h : ∀ v ∈ xs, v = LOG_ZERO) : xs.foldl max x = LOG_ZERO := by
  induction xs generalizing x with
  | nil => simpa using hx
  | cons y ys ih =>
    simp only [List.foldl_cons]
    exact ih (max x y) (by rw [hx, h y (List.mem_cons_self y ys), max_self])
      (fun v hv => h v (List.mem_cons_of_mem y hv))

theorem log_sum_exp_all_log_zero (l : List ℝ) (h : ∀ v ∈ l, v = LOG_ZERO) :
    log_sum_exp l = LOG_ZERO := by
  cases l with
  | nil => rfl
  | cons x xs =>
    have hmax : xs.foldl max x = LOG_ZERO :=
      foldl_max_all_log_zero xs x (h x (List.mem_cons_self x xs))
        (fun v hv => h v (List.mem_cons_of_mem x hv))
    simp [log_sum_exp, hmax]

theorem log_sum_exp_replicate_log_zero (n : ℕ) :
    log_sum_exp (List.replicate n LOG_ZERO) = LOG_ZERO :=
  log_sum_exp_all_log_zero _ (fun v hv => List.eq_of_mem_replicate hv)

/-- Claim C7: the log-sum-exp helper returns `LOG_ZERO` on an all-`LOG_ZERO`
input, returns the element itself on a one-element input, and satisfies
`LSE(a, a) = a + log 2` for every `a` different from the `LOG_ZERO` sentinel. -/
theorem claim7_log_sum_exp_laws :
    (∀ l : List ℝ, (∀ v ∈ l, v = LOG_ZERO) → log_sum_exp l = LOG_ZERO) ∧
    (∀ a : ℝ, log_sum_exp [a] = a) ∧
    (∀ a : ℝ, a ≠ LOG_ZERO → log_sum_exp [a, a] = a + Real.log 2) := by
  refine ⟨log_sum_exp_all_log_zero, ?_, ?_⟩
  · intro a
    by_cases ha : a = LOG_ZERO
    · simp [log_sum_exp, ha]
    · simp [log_sum_exp, ha]
  · intro a ha
    have hmax : [a].foldl max a = a := by simp
    simp only [log_sum_exp, List.foldl_cons, List.foldl_nil, max_self]
    rw [if_neg ha]
    simp [ha, Real.exp_zero]
    norm_num

/-- Witness for C7 at concrete inputs. -/
theorem claim7_witness :
    log_sum_exp [LOG_ZERO, LOG_ZERO] = LOG_ZERO ∧
    log_sum_exp [(0 : ℝ), 0] = 0 + Real.log 2 := by
  constructor
  · exact claim7_log_sum_exp_laws.1 [LOG_ZERO, LOG_ZERO]
      (by
        intro v hv
        simp only [List.mem_cons, List.not_mem_nil, or_false] at hv
        rcases hv with h | h <;> exact h)
  · exact claim7_log_sum_exp_laws.2.2 0 (by norm_num [LOG_ZERO])

/-- Claim C2 (code bug): a negative index together with a positive probability
passes the one-sided guard `index < size` and the setter performs an
out-of-bounds table write (undefined behaviour, `none` in this model) instead
of leaving the tables unchanged. -/
theorem claim2_setters_negative_index_oob :
    HMM.setTransitionProb (HMM.init 2 2) (-1) 0 (1 / 2) = none ∧
    HMM.setEmissionProb (HMM.init 2 2) 0 (-1) (1 / 2) = none ∧
    HMM.setInitialProb (HMM.init 2 2) (-1) (1 / 2) = none := by
  refine ⟨?_, ?_, ?_⟩
  · rw [HMM.setTransitionProb, if_pos (by norm_num [HMM.init])]
    simp [getIdxInt?, HMM.init]
  · rw [HMM.setEmissionProb, if_pos (by norm_num [HMM.init])]
    simp [getIdxInt?, setIdxInt?, HMM.init]
  · rw [HMM.setInitialProb, if_pos (by norm_num [HMM.init])]
    simp [setIdxInt?, HMM.init]

/-! ## HMM fill-phase lemmas -/

theorem exists_get?_of_lt {α : Type} (l : List α) (n : ℕ) (h : n < l.length) :
    ∃ a, l.get? n = some a := by
  simp only [List.get?_eq_getElem?]
  exact ⟨l[n], List.getElem?_eq_getElem h⟩

theorem getD_nonneg_of_forall (obs : List ℤ) (h : ∀ o ∈ obs, 0 ≤ o) (t : ℕ) :
    0 ≤ obs.getD t 0 := by
  rcases Nat.lt_or_ge t obs.length with ht | ht
  · obtain ⟨a, ha⟩ := exists_get?_of_lt obs t ht
    have : obs.getD t 0 = a := by
      simp [List.getD_eq_getElem?_getD, ← List.get?_eq_getElem?, ha]
    rw [this]
    exact h a (List.get?_mem ha)
  · simp [List.getD_eq_getElem?_getD, List.getElem?_eq_none ht]

theorem getD_eq_of_get? (obs : List ℤ) (t : ℕ) (a : ℤ) (ha : obs.get? t = some a) :
    obs.getD t 0 = a := by
  simp [List.getD_eq_getElem?_getD, ← List.get?_eq_getElem?, ha]

/-- Accessing `emission_probs[s][o]` succeeds for an in-range state and a
symbol in `[0, K)`. -/
theorem emission_access (h : HMM) (hwf : h.WF) (s : ℕ) (hs : s < h.num_states) (o : ℤ)
    (h0 : 0 ≤ o) (hK : o < (h.num_observations : ℤ)) :
    ∃ row b, h.emission_probs.get? s = some row ∧ getIdxInt? row o = some b := by
  obtain ⟨row, hrow⟩ := exists_get?_of_lt h.emission_probs s (by rw [hwf.2.2.1]; exact hs)
  have hrl : row.length = h.num_observations := hwf.2.2.2.1 row (List.get?_mem hrow)
  obtain ⟨b, hb⟩ := exists_get?_of_lt row o.toNat (by rw [hrl]; omega)
  exact ⟨row, b, hrow, by rw [getIdxInt?, if_pos h0]; exact hb⟩

/-- `initColV` when `obs[0]` is out of vocabulary (`≥ K`): the guard fails for
every state and the column keeps its initial `LOG_ZERO` entries. -/
theorem initColV_oob (h : HMM) (o0 : ℤ) (hoob : (h.num_observations : ℤ) ≤ o0) :
    initColV h o0 = some (List.replicate h.num_states LOG_ZERO) := by
  rw [initColV, omap_eq_map_of (g := fun _ => LOG_ZERO)
    (fun s _ => by rw [if_neg (not_lt.mpr hoob)]; rfl)]
  simp

/-- `initColV` succeeds with a length-`N` column for any nonnegative symbol. -/
theorem initColV_isSome (h : HMM) (hwf : h.WF) (o0 : ℤ) (h0 : 0 ≤ o0) :
    ∃ c, initColV h o0 = some c ∧ c.length = h.num_states := by
  by_cases hlt : o0 < (h.num_observations : ℤ)
  · rw [initColV]
    obtain ⟨r, hr, hlen⟩ := omap_some_of (f := fun s =>
      if o0 < (h.num_observations : ℤ) then do
        let p ← h.initial_probs.get? s
        let row ← h.emission_probs.get? s
        let b ← getIdxInt? row o0
        pure (p + b)
      else pure LOG_ZERO)
      (l := List.range h.num_states) (fun s hs => by
        have hsN : s < h.num_states := List.mem_range.mp hs
        obtain ⟨p, hp⟩ := exists_get?_of_lt h.initial_probs s (by rw [hwf.2.2.2.2]; exact hsN)
        obtain ⟨row, b, hrow, hb⟩ := emission_access h hwf s hsN o0 h0 hlt
        simp only [List.get?_eq_getElem?] at hp hrow
        simp [hlt, hp, hrow, hb])
    exact ⟨r, hr, by rw [hlen, List.length_range]⟩
  · exact ⟨_, initColV_oob h o0 (not_lt.mp hlt), List.length_replicate _ _⟩

/-- `forwardStep` when the symbol is out of vocabulary. -/
theorem forwardStep_oob (h : HMM) (prev : List ℝ) (o : ℤ)
    (hoob : (h.num_observations : ℤ) ≤ o) :
    forwardStep h prev o = some (List.replicate h.num_states LOG_ZERO) := by
  rw [forwardStep, if_pos hoob]
  rfl

/-- `forwardStep` succeeds on a length-`N` previous column and a nonnegative
symbol. -/
theorem forwardStep_isSome (h : HMM) (hwf : h.WF) (prev : List ℝ) (o : ℤ)
    (hprev : prev.length = h.num_states) (h0 : 0 ≤ o) :
    ∃ c, forwardStep h prev o = some c ∧ c.length = h.num_states := by
  by_cases hoob : (h.num_observations : ℤ) ≤ o
  · exact ⟨_, forwardStep_oob h prev o hoob, List.length_replicate _ _⟩
  · rw [forwardStep, if_neg hoob]
    obtain ⟨r, hr, hlen⟩ := omap_some_of (f := fun s => do
      let lp ← omap (fun prev_s => do
        let vp ← prev.get? prev_s
        let arow ← h.transition_probs.get? prev_s
        let a ← arow.get? s
        pure (vp + a)) (List.range h.num_states)
      let row ← h.emission_probs.get? s
      let b ← getIdxInt? row o
      pure (log_sum_exp lp + b))
      (l := List.range h.num_states) (fun s hs => by
      have hsN : s < h.num_states := List.mem_range.mp hs
      have hinner : ∀ prev_s ∈ List.range h.num_states,
          (do
            let vp ← prev.get? prev_s
            let arow ← h.transition_probs.get? prev_s
            let a ← arow.get? s
            pure (vp + a) : Option ℝ).isSome := by
        intro prev_s hps
        have hpsN : prev_s < h.num_states := List.mem_range.mp hps
        obtain ⟨vp, hvp⟩ := exists_get?_of_lt prev prev_s (by rw [hprev]; exact hpsN)
        obtain ⟨arow, harow⟩ := exists_get?_of_lt h.transition_probs prev_s
          (by rw [hwf.1]; exact hpsN)
        obtain ⟨a, ha⟩ := exists_get?_of_lt arow s
          (by rw [hwf.2.1 arow (List.get?_mem harow)]; exact hsN)
        simp only [List.get?_eq_getElem?] at hvp harow ha
        simp [hvp, harow, ha]
      obtain ⟨lp, hlp, _⟩ := omap_some_of hinner
      obtain ⟨row, b, hrow, hb⟩ := emission_access h hwf s hsN o h0 (not_le.mp hoob)
      simp only [List.get?_eq_getElem?] at hrow
      simp only [List.get?_eq_getElem?, Option.bind_eq_bind, Option.pure_def] at hlp
      simp [hlp, hrow, hb])
    exact ⟨r, hr, by rw [hlen, List.length_range]⟩

/-- Every `alpha` column exists (length `N`) when all symbols are nonnegative. -/
theorem alphaCol_isSome (h : HMM) (hwf : h.WF) (obs : List ℤ) (hnn : ∀ o ∈ obs, 0 ≤ o)
    (t : ℕ) : ∃ c, alphaCol h obs t = some c ∧ c.length = h.num_states := by
  induction t with
  | zero => exact initColV_isSome h hwf _ (getD_nonneg_of_forall obs hnn 0)
  | succ t ih =>
    obtain ⟨c, hc, hlen⟩ := ih
    obtain ⟨c', hc', hlen'⟩ := forwardStep_isSome h hwf c _ hlen
      (getD_nonneg_of_forall obs hnn (t + 1))
    exact ⟨c', by rw [alphaCol, hc]; exact hc', hlen'⟩

/-- An out-of-vocabulary symbol at time `t` leaves the whole `alpha` column `t`
at `LOG_ZERO` (when all symbols are nonnegative, so that the fill reaches it). -/
theorem alphaCol_oob (h : HMM) (hwf : h.WF) (obs : List ℤ) (hnn : ∀ o ∈ obs, 0 ≤ o)
    (t : ℕ) (o : ℤ) (hget : obs.get? t = some o) (hoob : (h.num_observations : ℤ) ≤ o) :
    alphaCol h obs t = some (List.replicate h.num_states LOG_ZERO) := by
  cases t with
  | zero => rw [alphaCol, getD_eq_of_get? obs 0 o hget]; exact initColV_oob h o hoob
  | succ t =>
    obtain ⟨c, hc, _⟩ := alphaCol_isSome h hwf obs hnn t
    rw [alphaCol, hc, Option.some_bind, getD_eq_of_get? obs (t + 1) o hget]
    exact forwardStep_oob h c o hoob

theorem viterbiStep_oob (h : HMM) (prev : List ℝ) (o : ℤ)
    (hoob : (h.num_observations : ℤ) ≤ o) :
    viterbiStep h prev o =
      some (List.replicate h.num_states LOG_ZERO, List.replicate h.num_states (-1)) := by
  rw [viterbiStep, if_pos hoob]
  rfl

theorem viterbiStep_isSome (h : HMM) (hwf : h.WF) (prev : List ℝ) (o : ℤ)
    (hprev : prev.length = h.num_states) (h0 : 0 ≤ o) :
    ∃ p, viterbiStep h prev o = some p ∧
      p.1.length = h.num_states ∧ p.2.length = h.num_states := by
  by_cases hoob : (h.num_observations : ℤ) ≤ o
  · exact ⟨_, viterbiStep_oob h prev o hoob, List.length_replicate _ _, List.length_replicate _ _⟩
  · rw [viterbiStep, if_neg hoob]
    obtain ⟨pairs, hpairs, hplen⟩ := omap_some_of (f := fun s => do
      let row ← h.emission_probs.get? s
      ofold (fun (acc : ℝ × ℤ) prev_s => do
        let vp ← prev.get? prev_s
        let arow ← h.transition_probs.get? prev_s
        let a ← arow.get? s
        let b ← getIdxInt? row o
        pure (if vp + a + b > acc.1 then (vp + a + b, (prev_s : ℤ)) else acc))
        (List.range h.num_states) (LOG_ZERO, -1))
      (l := List.range h.num_states) (fun s hs => by
        have hsN : s < h.num_states := List.mem_range.mp hs
        obtain ⟨row, b, hrow, hb⟩ := emission_access h hwf s hsN o h0 (not_le.mp hoob)
        obtain ⟨st, hst, -⟩ := ofold_some_of (P := fun _ : ℝ × ℤ => True)
          (f := fun acc prev_s => do
            let vp ← prev.get? prev_s
            let arow ← h.transition_probs.get? prev_s
            let a ← arow.get? s
            let b ← getIdxInt? row o
            pure (if vp + a + b > acc.1 then (vp + a + b, (prev_s : ℤ)) else acc))
          (l := List.range h.num_states) (b := (LOG_ZERO, -1)) trivial
          (fun acc prev_s _ hps => by
            have hpsN : prev_s < h.num_states := List.mem_range.mp hps
            obtain ⟨vp, hvp⟩ := exists_get?_of_lt prev prev_s (by rw [hprev]; exact hpsN)
            obtain ⟨arow, harow⟩ := exists_get?_of_lt h.transition_probs prev_s
              (by rw [hwf.1]; exact hpsN)
            obtain ⟨a, ha⟩ := exists_get?_of_lt arow s
              (by rw [hwf.2.1 arow (List.get?_mem harow)]; exact hsN)
            refine ⟨if vp + a + b > acc.1 then (vp + a + b, (prev_s : ℤ)) else acc, ?_, trivial⟩
            simp only [List.get?_eq_getElem?] at hvp harow ha
            simp [hvp, harow, ha, hb])
        simp only [List.get?_eq_getElem?] at hrow
        simp only [List.get?_eq_getElem?, Option.bind_eq_bind, Option.pure_def] at hst
        simp [hrow, hst])
    refine ⟨(pairs.map Prod.fst, pairs.map Prod.snd), ?_, ?_, ?_⟩
    · simp only [List.get?_eq_getElem?, Option.bind_eq_bind, Option.pure_def] at hpairs
      simp [hpairs]
    · simp [hplen]
    · simp [hplen]

theorem viterbiCols_isSome (h : HMM) (hwf : h.WF) (obs : List ℤ) (hnn : ∀ o ∈ obs, 0 ≤ o)
    (t : ℕ) : ∃ p, viterbiCols h obs t = some p ∧
      p.1.length = h.num_states ∧ p.2.length = h.num_states := by
  induction t with
  | zero =>
    obtain ⟨c, hc, hlen⟩ := initColV_isSome h hwf _ (getD_nonneg_of_forall obs hnn 0)
    exact ⟨(c, List.replicate h.num_states (-1)), by rw [viterbiCols, hc]; rfl,
      hlen, List.length_replicate _ _⟩
  | succ t ih =>
    obtain ⟨p, hp, hlen, -⟩ := ih
    obtain ⟨p', hp', hlen'⟩ := viterbiStep_isSome h hwf p.1 _ hlen
      (getD_nonneg_of_forall obs hnn (t + 1))
    exact ⟨p', by rw [viterbiCols, hp, Option.some_bind]; exact hp', hlen'⟩

/-- An out-of-vocabulary symbol at time `t` leaves the Viterbi probability
column at `LOG_ZERO` and the backpointer column at `-1`. -/
theorem viterbiCols_oob (h : HMM) (hwf : h.WF) (obs : List ℤ) (hnn : ∀ o ∈ obs, 0 ≤ o)
    (t : ℕ) (o : ℤ) (hget : obs.get? t = some o) (hoob : (h.num_observations : ℤ) ≤ o) :
    viterbiCols h obs t =
      some (List.replicate h.num_states LOG_ZERO, List.replicate h.num_states (-1)) := by
  cases t with
  | zero =>
    rw [viterbiCols, getD_eq_of_get? obs 0 o hget, initColV_oob h o hoob]
    rfl
  | succ t =>
    obtain ⟨p, hp, -, -⟩ := viterbiCols_isSome h hwf obs hnn t
    rw [viterbiCols, hp, Option.some_bind, getD_eq_of_get? obs (t + 1) o hget]
    exact viterbiStep_oob h p.1 o hoob

theorem betaColAux_isSome (h : HMM) (hwf : h.WF) (obs : List ℤ) (hnn : ∀ o ∈ obs, 0 ≤ o)
    (d : ℕ) : ∃ c, betaColAux h obs d = some c ∧ c.length = h.num_states := by
  induction d with
  | zero => exact ⟨_, rfl, List.length_replicate _ _⟩
  | succ d ih =>
    obtain ⟨nxt, hnxt, hnlen⟩ := ih
    rw [betaColAux, hnxt, Option.some_bind]
    set o := obs.getD (obs.length - 1 - d) 0 with ho
    have h0 : 0 ≤ o := getD_nonneg_of_forall obs hnn _
    by_cases hoob : (h.num_observations : ℤ) ≤ o
    · rw [if_pos hoob]
      exact ⟨_, rfl, List.length_replicate _ _⟩
    · rw [if_neg hoob]
      obtain ⟨r, hr, hlen⟩ := omap_some_of (f := fun s => do
        let arow ← h.transition_probs.get? s
        let lp ← omap (fun next_s => do
          let a ← arow.get? next_s
          let brow ← h.emission_probs.get? next_s
          let b ← getIdxInt? brow o
          let bv ← nxt.get? next_s
          pure (a + b + bv)) (List.range h.num_states)
        pure (log_sum_exp lp))
        (l := List.range h.num_states) (fun s hs => by
          have hsN : s < h.num_states := List.mem_range.mp hs
          obtain ⟨arow, harow⟩ := exists_get?_of_lt h.transition_probs s
            (by rw [hwf.1]; exact hsN)
          have hinner : ∀ next_s ∈ List.range h.num_states,
              ((do
                let a ← arow.get? next_s
                let brow ← h.emission_probs.get? next_s
                let b ← getIdxInt? brow o
                let bv ← nxt.get? next_s
                pure (a + b + bv) : Option ℝ)).isSome := by
            intro next_s hns
            have hnsN : next_s < h.num_states := List.mem_range.mp hns
            obtain ⟨a, ha⟩ := exists_get?_of_lt arow next_s
              (by rw [hwf.2.1 arow (List.get?_mem harow)]; exact hnsN)
            obtain ⟨brow, b, hbrow, hb⟩ := emission_access h hwf next_s hnsN o h0
              (not_le.mp hoob)
            obtain ⟨bv, hbv⟩ := exists_get?_of_lt nxt next_s (by rw [hnlen]; exact hnsN)
            simp only [List.get?_eq_getElem?] at ha hbrow hbv
            simp [ha, hbrow, hb, hbv]
          obtain ⟨lp, hlp, -⟩ := omap_some_of hinner
          simp only [List.get?_eq_getElem?] at harow
          simp only [List.get?_eq_getElem?, Option.bind_eq_bind, Option.pure_def] at hlp
          simp [harow, hlp])
      exact ⟨r, hr, by rw [hlen, List.length_range]⟩

/-- An out-of-vocabulary symbol `obs[t+1]` leaves the `beta` column `t`
(that is, `betaColAux` at depth `T-1-t`) at `LOG_ZERO`. -/
theorem betaColAux_oob (h : HMM) (hwf : h.WF) (obs : List ℤ) (hnn : ∀ o ∈ obs, 0 ≤ o)
    (d : ℕ) (o : ℤ) (hget : obs.get? (obs.length - 1 - d) = some o)
    (hoob : (h.num_observations : ℤ) ≤ o) :
    betaColAux h obs (d + 1) = some (List.replicate h.num_states LOG_ZERO) := by
  obtain ⟨nxt, hnxt, -⟩ := betaColAux_isSome h hwf obs hnn d
  rw [betaColAux, hnxt, Option.some_bind, getD_eq_of_get? obs _ o hget, if_pos hoob]
  rfl

theorem forward_isSome (h : HMM) (hwf : h.WF) (obs : List ℤ) (hnn : ∀ o ∈ obs, 0 ≤ o) :
    (forward h obs).isSome := by
  rw [forward]
  by_cases hT : obs.length = 0
  · rw [if_pos hT]; rfl
  · rw [if_neg hT]
    obtain ⟨c, hc, -⟩ := alphaCol_isSome h hwf obs hnn (obs.length - 1)
    simp [hc]

theorem backward_isSome (h : HMM) (hwf : h.WF) (obs : List ℤ) (hnn : ∀ o ∈ obs, 0 ≤ o) :
    (backward h obs).isSome := by
  rw [backward]
  by_cases hT : obs.length = 0
  · rw [if_pos hT]; rfl
  · rw [if_neg hT]
    obtain ⟨beta0, hbeta0, hblen⟩ := betaColAux_isSome h hwf obs hnn (obs.length - 1)
    have h0 : 0 ≤ obs.getD 0 0 := getD_nonneg_of_forall obs hnn 0
    obtain ⟨ps, hps, -⟩ := ofold_some_of (P := fun _ : List ℝ => True)
      (f := fun acc s =>
        if obs.getD 0 0 < (h.num_observations : ℤ) then do
          let p ← h.initial_probs.get? s
          let row ← h.emission_probs.get? s
          let b ← getIdxInt? row (obs.getD 0 0)
          let bv ← beta0.get? s
          pure (acc ++ [p + b + bv])
        else pure acc)
      (l := List.range h.num_states) (b := []) trivial
      (fun acc s _ hs => by
        have hsN : s < h.num_states := List.mem_range.mp hs
        by_cases hlt : obs.getD 0 0 < (h.num_observations : ℤ)
        · obtain ⟨p, hp⟩ := exists_get?_of_lt h.initial_probs s
            (by rw [hwf.2.2.2.2]; exact hsN)
          obtain ⟨row, b, hrow, hb⟩ := emission_access h hwf s hsN _ h0 hlt
          obtain ⟨bv, hbv⟩ := exists_get?_of_lt beta0 s (by rw [hblen]; exact hsN)
          refine ⟨acc ++ [p + b + bv], ?_, trivial⟩
          simp only [List.get?_eq_getElem?] at hp hrow hbv
          simp only [List.getD_eq_getElem?_getD] at hlt hb
          simp [hlt, hp, hrow, hb, hbv]
        · refine ⟨acc, ?_, trivial⟩
          simp only [List.getD_eq_getElem?_getD] at hlt
          simp [hlt])
    simp only [List.getD_eq_getElem?_getD, List.get?_eq_getElem?, Option.bind_eq_bind,
      Option.pure_def] at hps
    simp [hbeta0, hps]

/-- When the last symbol is out of vocabulary, the final `alpha` column is all
`LOG_ZERO` and the forward likelihood is exactly `LOG_ZERO`. -/
theorem forward_oob_last (h : HMM) (hwf : h.WF) (obs : List ℤ) (hnn : ∀ o ∈ obs, 0 ≤ o)
    (o : ℤ) (hget : obs.get? (obs.length - 1) = some o)
    (hoob : (h.num_observations : ℤ) ≤ o) : forward h obs = some LOG_ZERO := by
  have hT : obs.length ≠ 0 := by
    cases obs with
    | nil => simp at hget
    | cons a as => simp
  rw [forward, if_neg hT, alphaCol_oob h hwf obs hnn _ o hget hoob, Option.map_some',
    log_sum_exp_replicate_log_zero]

/-- Claim C1 (amended): a symbol `o ≥ K` at time `t` leaves column `t` of the
forward and Viterbi tables all-`LOG_ZERO` (and all backpointers `-1`); for the
backward table it is column `t-1` — that is, the column one before the symbol,
`betaColAux` depth `d+1` when `obs[T-1-d]` is the out-of-vocabulary symbol —
that stays at `LOG_ZERO`.  No emission-table access is made for such a symbol:
on any all-nonnegative observation sequence the three dynamic programs
complete (`isSome`).  When the *last* symbol is `≥ K` the forward likelihood
is exactly `LOG_ZERO`.  (Negative symbols are not covered: they pass the
one-sided guard and abort the run with an out-of-bounds emission access, see
the counterexample.) -/
theorem claim1_amended (h : HMM) (obs : List ℤ) (hwf : h.WF) (hnn : ∀ o ∈ obs, 0 ≤ o) :
    (∀ t o, obs.get? t = some o → (h.num_observations : ℤ) ≤ o →
        alphaCol h obs t = some (List.replicate h.num_states LOG_ZERO) ∧
        viterbiCols h obs t = some (List.replicate h.num_states LOG_ZERO,
          List.replicate h.num_states (-1))) ∧
    (∀ d o, obs.get? (obs.length - 1 - d) = some o → (h.num_observations : ℤ) ≤ o →
        betaColAux h obs (d + 1) = some (List.replicate h.num_states LOG_ZERO)) ∧
    (∀ o, obs.get? (obs.length - 1) = some o → (h.num_observations : ℤ) ≤ o →
        forward h obs = some LOG_ZERO) ∧
    (forward h obs).isSome ∧ (backward h obs).isSome := by
  refine ⟨?_, ?_, ?_, forward_isSome h hwf obs hnn, backward_isSome h hwf obs hnn⟩
  · exact fun t o hget hoob =>
      ⟨alphaCol_oob h hwf obs hnn t o hget hoob, viterbiCols_oob h hwf obs hnn t o hget hoob⟩
  · exact fun d o hget hoob => betaColAux_oob h hwf obs hnn d o hget hoob
  · exact fun o hget hoob => forward_oob_last h hwf obs hnn o hget hoob

/-- Witness for the amended C1 on a concrete model and sequence. -/
theorem claim1_witness :
    alphaCol (HMM.init 1 2) [0, 5] 1 = some [LOG_ZERO] ∧
    forward (HMM.init 1 2) [0, 5] = some LOG_ZERO := by
  have hwf := HMM.init_wf 1 2
  have hnn : ∀ o ∈ ([0, 5] : List ℤ), 0 ≤ o := by
    intro o ho
    simp only [List.mem_cons, List.not_mem_nil, or_false] at ho
    rcases ho with h | h <;> simp [h]
  have h1 := (claim1_amended (HMM.init 1 2) [0, 5] hwf hnn).1 1 5 rfl (by norm_num [HMM.init])
  have h2 := (claim1_amended (HMM.init 1 2) [0, 5] hwf hnn).2.2.1 5 rfl (by norm_num [HMM.init])
  exact ⟨h1.1, h2⟩

/-- Claim C1 counterexample: (i) a negative symbol passes the one-sided guard
`obs[t] < K` and all three algorithms perform an out-of-range emission-table
access (modelled `none`) instead of leaving the column at `LOG_ZERO`;
(ii) for the backward table it is not column `t` that stays at `LOG_ZERO`:
with `obs = [0, 5]` and `K = 1` the column at the time of the bad symbol
(`t = 1`) is the all-zero final column, not `LOG_ZERO`; (iii) with an
out-of-vocabulary symbol in the middle, the forward likelihood is
`3 · LOG_ZERO`, not `LOG_ZERO`, in exact arithmetic. -/
theorem claim1_counterexample :
    (forward (HMM.init 1 1) [-1] = none ∧
      viterbi (HMM.init 1 1) [-1] = none ∧
      backward (HMM.init 1 1) [-1] = none) ∧
    (betaColAux (HMM.init 1 1) [0, 5] 0 = some [0] ∧ (0 : ℝ) ≠ LOG_ZERO) ∧
    (forward (HMM.init 1 1) [0, 5, 0] = some (3 * LOG_ZERO) ∧ 3 * LOG_ZERO ≠ LOG_ZERO) := by
  refine ⟨⟨?_, ?_, ?_⟩, ⟨?_, by norm_num [LOG_ZERO]⟩, ?_, by norm_num [LOG_ZERO]⟩
  · norm_num [forward, alphaCol, initColV, omap, getIdxInt?, HMM.init, List.range_succ]
  · norm_num [viterbi, viterbiCols, initColV, omap, getIdxInt?, HMM.init, List.range_succ]
  · norm_num [backward, betaColAux, ofold, omap, getIdxInt?, HMM.init, List.range_succ]
  · norm_num [betaColAux, HMM.init]
  · norm_num [forward, alphaCol, forwardStep, initColV, omap, getIdxInt?, HMM.init,
      List.range_succ, log_sum_exp, LOG_ZERO]

/-! ## Viterbi backtracking lemmas (claim C3) -/

theorem ofold_eq_self_of {α β : Type} {f : β → α → Option β} {l : List α} {b : β}
    (h : ∀ a ∈ l, f b a = some b) : ofold f l b = some b := by
  induction l with
  | nil => rfl
  | cons a as ih =>
    rw [ofold, h a (List.mem_cons_self a as), Option.some_bind]
    exact ih (fun x hx => h x (List.mem_cons_of_mem a hx))

theorem get?_replicate_of_lt {α : Type} (n i : ℕ) (c : α) (h : i < n) :
    (List.replicate n c).get? i = some c := by
  simp [List.get?_eq_getElem?, List.getElem?_replicate, h]

/-- After an all-`LOG_ZERO` column, with every stored transition and emission
log-probability nonpositive, a Viterbi step never improves on the initial
`max_prob = LOG_ZERO`, so the next column is again all-`LOG_ZERO` with all
backpointers `-1`. -/
theorem viterbiStep_from_log_zero (h : HMM) (hwf : h.WF) (o : ℤ)
    (h0 : 0 ≤ o) (hK : o < (h.num_observations : ℤ))
    (hA : ∀ r ∈ h.transition_probs, ∀ v ∈ r, v ≤ 0)
    (hB : ∀ r ∈ h.emission_probs, ∀ v ∈ r, v ≤ 0) :
    viterbiStep h (List.replicate h.num_states LOG_ZERO) o =
      some (List.replicate h.num_states LOG_ZERO, List.replicate h.num_states (-1)) := by
  rw [viterbiStep, if_neg (not_le.mpr hK)]
  have hpairs : omap (fun s => do
      let row ← h.emission_probs.get? s
      ofold (fun (acc : ℝ × ℤ) prev_s => do
        let vp ← (List.replicate h.num_states LOG_ZERO).get? prev_s
        let arow ← h.transition_probs.get? prev_s
        let a ← arow.get? s
        let b ← getIdxInt? row o
        pure (if vp + a + b > acc.1 then (vp + a + b, (prev_s : ℤ)) else acc))
        (List.range h.num_states) (LOG_ZERO, -1)) (List.range h.num_states) =
      some ((List.range h.num_states).map (fun _ => ((LOG_ZERO : ℝ), (-1 : ℤ)))) := by
    apply omap_eq_map_of
    intro s hs
    have hsN : s < h.num_states := List.mem_range.mp hs
    obtain ⟨row, b, hrow, hb⟩ := emission_access h hwf s hsN o h0 hK
    have hbrow : b ∈ row := by
      rw [getIdxInt?, if_pos h0] at hb
      exact List.get?_mem hb
    have hble : b ≤ 0 := hB row (List.get?_mem hrow) b hbrow
    have hfold : ofold (fun (acc : ℝ × ℤ) prev_s => do
        let vp ← (List.replicate h.num_states LOG_ZERO).get? prev_s
        let arow ← h.transition_probs.get? prev_s
        let a ← arow.get? s
        let b ← getIdxInt? row o
        pure (if vp + a + b > acc.1 then (vp + a + b, (prev_s : ℤ)) else acc))
        (List.range h.num_states) (LOG_ZERO, -1) = some (LOG_ZERO, -1) := by
      apply ofold_eq_self_of
      intro prev_s hps
      have hpsN : prev_s < h.num_states := List.mem_range.mp hps
      obtain ⟨arow, harow⟩ := exists_get?_of_lt h.transition_probs prev_s
        (by rw [hwf.1]; exact hpsN)
      obtain ⟨a, ha⟩ := exists_get?_of_lt arow s
        (by rw [hwf.2.1 arow (List.get?_mem harow)]; exact hsN)
      have hale : a ≤ 0 := hA arow (List.get?_mem harow) a (List.get?_mem ha)
      have hnogain : ¬ (LOG_ZERO + a + b > LOG_ZERO) := by
        simp only [gt_iff_lt, not_lt]
        linarith
      simp only [List.get?_eq_getElem?] at harow ha
      simp [get?_replicate_of_lt h.num_states prev_s LOG_ZERO hpsN,
        List.get?_eq_getElem?, List.getElem?_replicate, hpsN, harow, ha, hb, hnogain]
    simp only [List.get?_eq_getElem?] at hrow
    simp only [List.get?_eq_getElem?, Option.bind_eq_bind, Option.pure_def] at hfold
    simp [hrow, hfold]
  simp only [List.get?_eq_getElem?, Option.bind_eq_bind, Option.pure_def] at hpairs
  simp [hpairs, List.map_const']

/-- Claim C3 (amended): when Viterbi backtracking meets a `-1` backpointer, the
position before it in the returned sequence receives `-1` itself (not the
default `0`); if positions remain beyond that, the next backtracking step
indexes the backpointer column at `-1`, an out-of-bounds access (`none`).
Concretely: for any well-formed model with at least one state, a length-2
sequence whose second symbol is out of vocabulary returns `[-1, 0]`; with a
length-3 sequence (and all stored log-probabilities nonpositive) the run
aborts on the `path[t][-1]` access. -/
theorem claim3_amended (h : HMM) (hwf : h.WF) (hN : 0 < h.num_states) :
    (∀ o0 o1 : ℤ, 0 ≤ o0 → o0 < (h.num_observations : ℤ) →
      (h.num_observations : ℤ) ≤ o1 →
      viterbi h [o0, o1] = some [-1, 0]) ∧
    (∀ o0 o1 o2 : ℤ, 0 ≤ o0 → o0 < (h.num_observations : ℤ) →
      (h.num_observations : ℤ) ≤ o1 → 0 ≤ o2 → o2 < (h.num_observations : ℤ) →
      (∀ r ∈ h.transition_probs, ∀ v ∈ r, v ≤ 0) →
      (∀ r ∈ h.emission_probs, ∀ v ∈ r, v ≤ 0) →
      viterbi h [o0, o1, o2] = none) := by
  have hKnn : (0 : ℤ) ≤ (h.num_observations : ℤ) := Int.natCast_nonneg _
  have hfin : ofold (fun (acc : ℝ × ℤ) s =>
      ((List.replicate h.num_states LOG_ZERO).get? s).map
        (fun v => if v > acc.1 then (v, (s : ℤ)) else acc))
      (List.range h.num_states) (LOG_ZERO, 0) = some (LOG_ZERO, 0) := by
    apply ofold_eq_self_of
    intro s hs
    rw [get?_replicate_of_lt h.num_states s LOG_ZERO (List.mem_range.mp hs),
      Option.map_some']
    simp
  constructor
  · intro o0 o1 h00 h0K hK1
    have hnn : ∀ o ∈ ([o0, o1] : List ℤ), 0 ≤ o := by
      intro o ho
      simp only [List.mem_cons, List.not_mem_nil, or_false] at ho
      rcases ho with rfl | rfl
      · exact h00
      · exact le_trans hKnn hK1
    have hcols1 : viterbiCols h [o0, o1] 1 =
        some (List.replicate h.num_states LOG_ZERO, List.replicate h.num_states (-1)) :=
      viterbiCols_oob h hwf [o0, o1] hnn 1 o1 rfl hK1
    have hback : viterbiBack h [o0, o1] 0 1 = some (-1, [-1, 0]) := by
      rw [show (1 : ℕ) = 0 + 1 from rfl, viterbiBack]
      have hget : getIdxInt? (List.replicate h.num_states (-1 : ℤ)) 0 = some (-1) := by
        rw [getIdxInt?, if_pos le_rfl]
        exact get?_replicate_of_lt h.num_states 0 (-1) hN
      simp [viterbiBack, hcols1, hget]
    rw [viterbi, if_neg (by simp)]
    simp only [List.get?_eq_getElem?, Option.bind_eq_bind, Option.pure_def]
      at hcols1 hfin hback
    simp [hcols1, hfin, hback]
  · intro o0 o1 o2 h00 h0K hK1 h02 h2K hA hB
    have hnn : ∀ o ∈ ([o0, o1, o2] : List ℤ), 0 ≤ o := by
      intro o ho
      simp only [List.mem_cons, List.not_mem_nil, or_false] at ho
      rcases ho with rfl | rfl | rfl
      · exact h00
      · exact le_trans hKnn hK1
      · exact h02
    have hcols1 : viterbiCols h [o0, o1, o2] 1 =
        some (List.replicate h.num_states LOG_ZERO, List.replicate h.num_states (-1)) :=
      viterbiCols_oob h hwf [o0, o1, o2] hnn 1 o1 rfl hK1
    have hcols2 : viterbiCols h [o0, o1, o2] 2 =
        some (List.replicate h.num_states LOG_ZERO, List.replicate h.num_states (-1)) := by
      rw [show (2 : ℕ) = 1 + 1 from rfl, viterbiCols, hcols1, Option.some_bind]
      exact viterbiStep_from_log_zero h hwf o2 h02 h2K hA hB
    have hget0 : getIdxInt? (List.replicate h.num_states (-1 : ℤ)) 0 = some (-1) := by
      rw [getIdxInt?, if_pos le_rfl]
      exact get?_replicate_of_lt h.num_states 0 (-1) hN
    have hgetneg : getIdxInt? (List.replicate h.num_states (-1 : ℤ)) (-1) = none := by
      rw [getIdxInt?, if_neg (by norm_num)]
    have hback1 : viterbiBack h [o0, o1, o2] 0 1 = some (-1, [-1, 0]) := by
      rw [show (1 : ℕ) = 0 + 1 from rfl, viterbiBack]
      simp [viterbiBack, hcols2, hget0]
    have hback2 : viterbiBack h [o0, o1, o2] 0 2 = none := by
      rw [show (2 : ℕ) = 1 + 1 from rfl, viterbiBack, hback1]
      simp [hcols1, hgetneg]
    rw [viterbi, if_neg (by simp)]
    simp only [List.get?_eq_getElem?, Option.bind_eq_bind, Option.pure_def]
      at hcols2 hfin hback2
    simp [hcols2, hfin, hback2]

/-- Witness for the amended C3 on the concrete all-`LOG_ZERO` model. -/
theorem claim3_witness :
    viterbi (HMM.init 1 1) [0, 1] = some [-1, 0] ∧
    viterbi (HMM.init 1 1) [0, 1, 0] = none := by
  have hwf := HMM.init_wf 1 1
  have hN : 0 < (HMM.init 1 1).num_states := by norm_num [HMM.init]
  have hle : ∀ r ∈ (HMM.init 1 1).transition_probs, ∀ v ∈ r, v ≤ 0 := by
    intro r hr v hv
    simp only [HMM.init] at hr
    rw [List.eq_of_mem_replicate hr] at hv
    rw [List.eq_of_mem_replicate hv]
    norm_num [LOG_ZERO]
  have hle' : ∀ r ∈ (HMM.init 1 1).emission_probs, ∀ v ∈ r, v ≤ 0 := by
    intro r hr v hv
    simp only [HMM.init] at hr
    rw [List.eq_of_mem_replicate hr] at hv
    rw [List.eq_of_mem_replicate hv]
    norm_num [LOG_ZERO]
  constructor
  · exact (claim3_amended (HMM.init 1 1) hwf hN).1 0 1 le_rfl (by norm_num [HMM.init])
      (by norm_num [HMM.init])
  · exact (claim3_amended (HMM.init 1 1) hwf hN).2 0 1 0 le_rfl (by norm_num [HMM.init])
      (by norm_num [HMM.init]) le_rfl (by norm_num [HMM.init]) hle hle'

/-- Claim C3 counterexample: on a concrete model and sequence, the position
before the met `-1` backpointer holds `-1`, not the default `0`. -/
theorem claim3_counterexample :
    viterbi (HMM.init 2 1) [0, 1] = some [-1, 0] ∧ (-1 : ℤ) ≠ 0 := by
  refine ⟨?_, by norm_num⟩
  norm_num [viterbi, viterbiCols, viterbiStep, viterbiBack, initColV, omap, ofold,
    getIdxInt?, HMM.init, List.range_succ]

/-! ## DTW component (src/wasm/dtw.cpp) -/

inductive DistanceMetric : Type
  | EUCLIDEAN
  | MANHATTAN
  | COSINE
deriving DecidableEq

/-- `calculateDistance`: mismatched dimensions give `+infinity`; otherwise the
selected metric over the paired entries. -/
noncomputable def calculateDistance (vec1 vec2 : List ℝ) (metric : DistanceMetric) :
    WithTop ℝ :=
  if vec1.length ≠ vec2.length then ⊤
  else
    match metric with
    | DistanceMetric.EUCLIDEAN =>
        ((Real.sqrt ((vec1.zip vec2).foldl
          (fun acc p => acc + (p.1 - p.2) * (p.1 - p.2)) 0) : ℝ) : WithTop ℝ)
    | DistanceMetric.MANHATTAN =>
        (((vec1.zip vec2).foldl (fun acc p => acc + |p.1 - p.2|) 0 : ℝ) : WithTop ℝ)
    | DistanceMetric.COSINE =>
        let dot_product := (vec1.zip vec2).foldl (fun acc p => acc + p.1 * p.2) 0
        let norm1 := vec1.foldl (fun acc v => acc + v * v) 0
        let norm2 := vec2.foldl (fun acc v => acc + v * v) 0
        if norm1 = 0 ∨ norm2 = 0 then ((1 : ℝ) : WithTop ℝ)
        else (((1 - dot_product / (Real.sqrt norm1 * Real.sqrt norm2)) : ℝ) : WithTop ℝ)

/-- The local-distance matrix: `+infinity` outside the Sakoe-Chiba band. -/
noncomputable def localDist (s1 s2 : List (List ℝ)) (bw : ℤ) (metric : DistanceMetric)
    (i j : ℕ) : WithTop ℝ :=
  if |(i : ℤ) - (j : ℤ)| ≤ bw then calculateDistance (s1.getD i []) (s2.getD j []) metric
  else ⊤

/-- The DTW cost matrix after the fill loops of `computeDTW`, as a function of
the cell: cell `(0,0)` is the local distance; row 0 and column 0 accumulate
while `j <= band_width` (resp. `i <= band_width`) and within range; a body
cell is filled from the three predecessors when it lies in the loop range
`max(1, i-bw) <= j < min(m, i+bw+1)` and its local distance is finite; every
other cell keeps its initial `+infinity`. -/
noncomputable def costM (s1 s2 : List (List ℝ)) (bw : ℤ) (metric : DistanceMetric) :
    ℕ → ℕ → WithTop ℝ
  | 0, 0 => localDist s1 s2 bw metric 0 0
  | 0, j + 1 =>
      if j + 1 < s2.length ∧ ((j : ℤ) + 1) ≤ bw then
        costM s1 s2 bw metric 0 j + localDist s1 s2 bw metric 0 (j + 1)
      else ⊤
  | i + 1, 0 =>
      if i + 1 < s1.length ∧ ((i : ℤ) + 1) ≤ bw then
        costM s1 s2 bw metric i 0 + localDist s1 s2 bw metric (i + 1) 0
      else ⊤
  | i + 1, j + 1 =>
      if i + 1 < s1.length ∧ max 1 ((i : ℤ) + 1 - bw) ≤ (j : ℤ) + 1 ∧
          ((j : ℤ) + 1) < min (s2.length : ℤ) ((i : ℤ) + 1 + bw + 1) ∧
          localDist s1 s2 bw metric (i + 1) (j + 1) ≠ ⊤ then
        localDist s1 s2 bw metric (i + 1) (j + 1) +
          min (costM s1 s2 bw metric i j)
            (min (costM s1 s2 bw metric i (j + 1)) (costM s1 s2 bw metric (i + 1) j))
      else ⊤
termination_by i j => i + j
decreasing_by all_goals omega

/-- The backtracking while-loop: push the current cell, then prefer the
diagonal (`diag <= up && diag <= left`), then up (`up <= left`), else left;
on an edge, walk along the edge; finally push `(0,0)`. -/
noncomputable def backtrack (c : ℕ → ℕ → WithTop ℝ) : ℕ → ℕ → List (ℕ × ℕ)
  | 0, 0 => [(0, 0)]
  | 0, j + 1 => (0, j + 1) :: backtrack c 0 j
  | i + 1, 0 => (i + 1, 0) :: backtrack c i 0
  | i + 1, j + 1 =>
      (i + 1, j + 1) ::
        (if c i j ≤ c i (j + 1) ∧ c i j ≤ c (i + 1) j then backtrack c i j
         else if c i (j + 1) ≤ c (i + 1) j then backtrack c i (j + 1)
         else backtrack c (i + 1) j)
termination_by i j => i + j
decreasing_by all_goals omega

/-- The effective band width: inputs `<= 0` mean unconstrained, replaced by
`max n m`. -/
def effBand (n m : ℕ) (band_width : ℤ) : ℤ :=
  if band_width ≤ 0 then ((max n m : ℕ) : ℤ) else band_width

structure DTWResult where
  distance : WithTop ℝ
  path : List (ℕ × ℕ)
  cost_matrix : List (List (WithTop ℝ))

/-- `computeDTW`: empty input gives `{+inf, [], []}`; `band_width <= 0` means
unconstrained (internally `max n m`); the path is computed only when
`return_path` is set and the corner distance is finite. -/
noncomputable def computeDTW (sequence1 sequence2 : List (List ℝ)) (band_width : ℤ)
    (metric : DistanceMetric) (return_path : Bool) : DTWResult :=
  let n := sequence1.length
  let m := sequence2.length
  if n = 0 ∨ m = 0 then ⟨⊤, [], []⟩
  else
    let bw := effBand n m band_width
    let c := costM sequence1 sequence2 bw metric
    let dist := c (n - 1) (m - 1)
    let path :=
      if return_path = true ∧ ¬ dist = ⊤ then (backtrack c (n - 1) (m - 1)).reverse else []
    ⟨dist, path, (List.range n).map (fun i => (List.range m).map (fun j => c i j))⟩

/-- `dtw_distance` boundary wrapper (no path). -/
noncomputable def dtw_distance (seq1 seq2 : List (List ℝ)) (band_width : ℤ) : WithTop ℝ :=
  (computeDTW seq1 seq2 band_width DistanceMetric.EUCLIDEAN false).distance

/-- `dtw_align` boundary wrapper: Euclidean metric, path tracking on. -/
noncomputable def dtw_align (seq1 seq2 : List (List ℝ)) (band_width : ℤ) :
    WithTop ℝ × List (ℕ × ℕ) :=
  let r := computeDTW seq1 seq2 band_width DistanceMetric.EUCLIDEAN true
  (r.distance, r.path)

/-! ## DTW band invariant (claim C4) -/

/-- The raw three-predecessor minimum read by a body cell. -/
noncomputable def minPrev (c : ℕ → ℕ → WithTop ℝ) (i j : ℕ) : WithTop ℝ :=
  min (c (i - 1) (j - 1)) (min (c (i - 1) j) (c i (j - 1)))

/-- The same minimum with any out-of-band predecessor replaced by
`+infinity` (that is, excluded). -/
noncomputable def minPrevBand (bw : ℤ) (c : ℕ → ℕ → WithTop ℝ) (i j : ℕ) : WithTop ℝ :=
  min (if |((i - 1 : ℕ) : ℤ) - ((j - 1 : ℕ) : ℤ)| ≤ bw then c (i - 1) (j - 1) else ⊤)
    (min (if |((i - 1 : ℕ) : ℤ) - ((j : ℕ) : ℤ)| ≤ bw then c (i - 1) j else ⊤)
      (if |((i : ℕ) : ℤ) - ((j - 1 : ℕ) : ℤ)| ≤ bw then c i (j - 1) else ⊤))

/-- Any cell strictly outside the band keeps its initial `+infinity`. -/
theorem costM_out_of_band (s1 s2 : List (List ℝ)) (bw : ℤ) (metric : DistanceMetric)
    (hbw : 1 ≤ bw) (i j : ℕ) (hband : bw < |(i : ℤ) - (j : ℤ)|) :
    costM s1 s2 bw metric i j = ⊤ := by
  rcases lt_abs.mp hband with hc | hc
  all_goals cases i with
  | zero => cases j with
    | zero => omega
    | succ j =>
      rw [costM, if_neg]
      rintro ⟨-, hj⟩
      omega
  | succ i => cases j with
    | zero =>
      rw [costM, if_neg]
      rintro ⟨-, hi⟩
      omega
    | succ j =>
      rw [costM, if_neg]
      rintro ⟨-, hstart, hend, -⟩
      have h1 : (i : ℤ) + 1 - bw ≤ (j : ℤ) + 1 := le_trans (le_max_right _ _) hstart
      have h2 : (j : ℤ) + 1 < (i : ℤ) + 1 + bw + 1 := lt_of_lt_of_le hend (min_le_right _ _)
      omega

theorem one_le_effBand (n m : ℕ) (band_width : ℤ) (hn : 0 < n) :
    1 ≤ effBand n m band_width := by
  rw [effBand]
  by_cases hb : band_width ≤ 0
  · rw [if_pos hb]
    omega
  · rw [if_neg hb]
    omega

/-- Claim C4: for non-empty sequences and the effective band width, every cell
`(i, j)` with `|i - j| > band_width` still holds `+infinity` after the fill,
and the three-predecessor minimum of every interior cell is unchanged when
out-of-band predecessors are excluded (replaced by `+infinity`) — so no
out-of-band cell ever determines the minimum of a filled cell. -/
theorem claim4_band_invariant (s1 s2 : List (List ℝ)) (band_width : ℤ)
    (metric : DistanceMetric) (h1 : s1 ≠ []) (h2 : s2 ≠ []) :
    (∀ i j, i < s1.length → j < s2.length →
      effBand s1.length s2.length band_width < |(i : ℤ) - (j : ℤ)| →
      costM s1 s2 (effBand s1.length s2.length band_width) metric i j = ⊤) ∧
    (∀ i j, 1 ≤ i → i < s1.length → 1 ≤ j → j < s2.length →
      minPrev (costM s1 s2 (effBand s1.length s2.length band_width) metric) i j =
        minPrevBand (effBand s1.length s2.length band_width)
          (costM s1 s2 (effBand s1.length s2.length band_width) metric) i j) := by
  have hbw : 1 ≤ effBand s1.length s2.length band_width :=
    one_le_effBand _ _ _ (List.length_pos.mpr h1)
  constructor
  · intro i j _ _ hband
    exact costM_out_of_band s1 s2 _ metric hbw i j hband
  · intro i j hi1 hi hj1 hj
    rw [minPrev, minPrevBand]
    have e1 : (if |((i - 1 : ℕ) : ℤ) - ((j - 1 : ℕ) : ℤ)| ≤ effBand s1.length s2.length band_width
        then costM s1 s2 (effBand s1.length s2.length band_width) metric (i - 1) (j - 1) else ⊤) =
        costM s1 s2 (effBand s1.length s2.length band_width) metric (i - 1) (j - 1) := by
      by_cases hd : |((i - 1 : ℕ) : ℤ) - ((j - 1 : ℕ) : ℤ)| ≤ effBand s1.length s2.length band_width
      · rw [if_pos hd]
      · rw [if_neg hd, costM_out_of_band s1 s2 _ metric hbw _ _ (not_le.mp hd)]
    have e2 : (if |((i - 1 : ℕ) : ℤ) - ((j : ℕ) : ℤ)| ≤ effBand s1.length s2.length band_width
        then costM s1 s2 (effBand s1.length s2.length band_width) metric (i - 1) j else ⊤) =
        costM s1 s2 (effBand s1.length s2.length band_width) metric (i - 1) j := by
      by_cases hd : |((i - 1 : ℕ) : ℤ) - ((j : ℕ) : ℤ)| ≤ effBand s1.length s2.length band_width
      · rw [if_pos hd]
      · rw [if_neg hd, costM_out_of_band s1 s2 _ metric hbw _ _ (not_le.mp hd)]
    have e3 : (if |((i : ℕ) : ℤ) - ((j - 1 : ℕ) : ℤ)| ≤ effBand s1.length s2.length band_width
        then costM s1 s2 (effBand s1.length s2.length band_width) metric i (j - 1) else ⊤) =
        costM s1 s2 (effBand s1.length s2.length band_width) metric i (j - 1) := by
      by_cases hd : |((i : ℕ) : ℤ) - ((j - 1 : ℕ) : ℤ)| ≤ effBand s1.length s2.length band_width
      · rw [if_pos hd]
      · rw [if_neg hd, costM_out_of_band s1 s2 _ metric hbw _ _ (not_le.mp hd)]
    rw [e1, e2, e3]

/-- Witness for C4 on concrete sequences (`n = m = 3`, band 1): the out-of-band
cell `(2, 0)` is `+infinity` and the interior minimum at `(1, 2)` ignores the
out-of-band predecessor `(0, 2)`. -/
theorem claim4_witness :
    costM [[(0 : ℝ)], [0], [0]] [[(0 : ℝ)], [0], [0]]
      (effBand 3 3 1) DistanceMetric.EUCLIDEAN 2 0 = ⊤ ∧
    minPrev (costM [[(0 : ℝ)], [0], [0]] [[(0 : ℝ)], [0], [0]]
        (effBand 3 3 1) DistanceMetric.EUCLIDEAN) 1 2 =
      minPrevBand (effBand 3 3 1)
        (costM [[(0 : ℝ)], [0], [0]] [[(0 : ℝ)], [0], [0]]
          (effBand 3 3 1) DistanceMetric.EUCLIDEAN) 1 2 := by
  have h := claim4_band_invariant [[(0 : ℝ)], [0], [0]] [[(0 : ℝ)], [0], [0]] 1
    DistanceMetric.EUCLIDEAN (by simp) (by simp)
  constructor
  · exact h.1 2 0 (by norm_num) (by norm_num) (by norm_num [effBand])
  · exact h.2 1 2 le_rfl (by norm_num) (by norm_num) (by norm_num)

/-- Claim C10: when the corner of the cost matrix is `+infinity`, `dtw_align`
returns that infinite distance with an empty path even though both inputs are
non-empty (the backtracking is guarded by `distance != inf`). -/
theorem claim10_infinite_corner_empty_path (seq1 seq2 : List (List ℝ)) (band_width : ℤ)
    (h1 : seq1 ≠ []) (h2 : seq2 ≠ [])
    (hcorner : costM seq1 seq2 (effBand seq1.length seq2.length band_width)
      DistanceMetric.EUCLIDEAN (seq1.length - 1) (seq2.length - 1) = ⊤) :
    dtw_align seq1 seq2 band_width = (⊤, []) := by
  rw [dtw_align]
  simp only [computeDTW]
  rw [if_neg (by simp [h1, h2])]
  simp [hcorner]

/-- Witness for C10: a one-frame and a two-dimensional-frame sequence have
mismatched feature dimensions, so the corner is already `+infinity`. -/
theorem claim10_witness : dtw_align [[(0 : ℝ)]] [[(0 : ℝ), 0]] (-1) = (⊤, []) := by
  apply claim10_infinite_corner_empty_path [[(0 : ℝ)]] [[(0 : ℝ), 0]] (-1)
    (by simp) (by simp)
  norm_num [costM, localDist, calculateDistance, effBand]

/-! ## DTW self-distance (claim C5) -/

theorem euclid_fold_self (v : List ℝ) (c : ℝ) :
    (v.zip v).foldl (fun acc p => acc + (p.1 - p.2) * (p.1 - p.2)) c = c := by
  induction v generalizing c with
  | nil => rfl
  | cons a as ih => simp [ih]

theorem calculateDistance_self_euclid (v : List ℝ) :
    calculateDistance v v DistanceMetric.EUCLIDEAN = ((0 : ℝ) : WithTop ℝ) := by
  rw [calculateDistance, if_neg (by simp)]
  simp [euclid_fold_self]

theorem calculateDistance_nonneg_euclid (v w : List ℝ) :
    0 ≤ calculateDistance v w DistanceMetric.EUCLIDEAN := by
  rw [calculateDistance]
  by_cases hl : v.length ≠ w.length
  · rw [if_pos hl]
    exact le_top
  · rw [if_neg hl]
    rw [show ((0 : WithTop ℝ)) = ((0 : ℝ) : WithTop ℝ) from rfl]
    exact WithTop.coe_le_coe.mpr (Real.sqrt_nonneg _)

theorem localDist_nonneg_euclid (s1 s2 : List (List ℝ)) (bw : ℤ) (i j : ℕ) :
    0 ≤ localDist s1 s2 bw DistanceMetric.EUCLIDEAN i j := by
  rw [localDist]
  by_cases hb : |(i : ℤ) - (j : ℤ)| ≤ bw
  · rw [if_pos hb]
    exact calculateDistance_nonneg_euclid _ _
  · rw [if_neg hb]
    exact le_top

theorem costM_nonneg_euclid (s1 s2 : List (List ℝ)) (bw : ℤ) (i j : ℕ) :
    0 ≤ costM s1 s2 bw DistanceMetric.EUCLIDEAN i j := by
  have H : ∀ k i j, i + j ≤ k → 0 ≤ costM s1 s2 bw DistanceMetric.EUCLIDEAN i j := by
    intro k
    induction k with
    | zero =>
      intro i j hk
      obtain ⟨rfl, rfl⟩ : i = 0 ∧ j = 0 := by omega
      rw [costM]
      exact localDist_nonneg_euclid s1 s2 bw 0 0
    | succ k ih =>
      intro i j hk
      match i, j with
      | 0, 0 =>
        rw [costM]
        exact localDist_nonneg_euclid s1 s2 bw 0 0
      | 0, j + 1 =>
        rw [costM]
        by_cases hc : j + 1 < s2.length ∧ ((j : ℤ) + 1) ≤ bw
        · rw [if_pos hc]
          exact add_nonneg (ih 0 j (by omega)) (localDist_nonneg_euclid s1 s2 bw 0 (j + 1))
        · rw [if_neg hc]
          exact le_top
      | i + 1, 0 =>
        rw [costM]
        by_cases hc : i + 1 < s1.length ∧ ((i : ℤ) + 1) ≤ bw
        · rw [if_pos hc]
          exact add_nonneg (ih i 0 (by omega)) (localDist_nonneg_euclid s1 s2 bw (i + 1) 0)
        · rw [if_neg hc]
          exact le_top
      | i + 1, j + 1 =>
        rw [costM]
        by_cases hc : i + 1 < s1.length ∧ max 1 ((i : ℤ) + 1 - bw) ≤ (j : ℤ) + 1 ∧
            ((j : ℤ) + 1) < min (s2.length : ℤ) ((i : ℤ) + 1 + bw + 1) ∧
            localDist s1 s2 bw DistanceMetric.EUCLIDEAN (i + 1) (j + 1) ≠ ⊤
        · rw [if_pos hc]
          exact add_nonneg (localDist_nonneg_euclid s1 s2 bw (i + 1) (j + 1))
            (le_min (ih i j (by omega)) (le_min (ih i (j + 1) (by omega)) (ih (i + 1) j (by omega))))
        · rw [if_neg hc]
          exact le_top
  exact H (i + j) i j le_rfl

theorem localDist_diag_self (s : List (List ℝ)) (bw : ℤ) (hbw : 0 ≤ bw) (i : ℕ) :
    localDist s s bw DistanceMetric.EUCLIDEAN i i = ((0 : ℝ) : WithTop ℝ) := by
  rw [localDist, if_pos (by simp [hbw])]
  exact calculateDistance_self_euclid _

theorem costM_diag_self (s : List (List ℝ)) (k : ℕ) (hk : k < s.length) :
    costM s s (s.length : ℤ) DistanceMetric.EUCLIDEAN k k = ((0 : ℝ) : WithTop ℝ) := by
  induction k with
  | zero =>
    rw [costM]
    exact localDist_diag_self s _ (by positivity) 0
  | succ k ih =>
    have hkk : k < s.length := by omega
    rw [costM, if_pos]
    · rw [ih hkk, localDist_diag_self s _ (by positivity) (k + 1)]
      have hmin : min (((0 : ℝ) : WithTop ℝ))
          (min (costM s s (s.length : ℤ) DistanceMetric.EUCLIDEAN k (k + 1))
            (costM s s (s.length : ℤ) DistanceMetric.EUCLIDEAN (k + 1) k)) =
          ((0 : ℝ) : WithTop ℝ) := by
        apply min_eq_left
        exact le_min (costM_nonneg_euclid s s _ k (k + 1)) (costM_nonneg_euclid s s _ (k + 1) k)
      rw [hmin, ← WithTop.coe_add, add_zero]
    · refine ⟨hk, ?_, ?_, ?_⟩
      · apply max_le
        · omega
        · omega
      · apply lt_min
        · exact_mod_cast hk
        · omega
      · rw [localDist_diag_self s _ (by positivity) (k + 1)]
        exact WithTop.coe_ne_top

theorem backtrack_diag (c : ℕ → ℕ → WithTop ℝ) (k : ℕ)
    (hdiag : ∀ t, t ≤ k → c t t = ((0 : ℝ) : WithTop ℝ))
    (hnn : ∀ i j, 0 ≤ c i j) :
    backtrack c k k = ((List.range (k + 1)).map (fun t => (t, t))).reverse := by
  induction k with
  | zero => simp [backtrack, List.range_succ]
  | succ k ih =>
    rw [backtrack, if_pos]
    · rw [ih (fun t ht => hdiag t (by omega))]
      simp [List.range_succ]
    · constructor
      · rw [hdiag k (by omega)]
        exact hnn k (k + 1)
      · rw [hdiag k (by omega)]
        exact hnn (k + 1) k

/-- Claim C5: for every non-empty sequence, DTW of the sequence against itself
with an unconstrained band (`band_width <= 0`) under the Euclidean metric has
distance `0` and the strict diagonal as its path. -/
theorem claim5_dtw_self (s : List (List ℝ)) (band_width : ℤ) (hs : s ≠ [])
    (hbw : band_width ≤ 0) :
    (computeDTW s s band_width DistanceMetric.EUCLIDEAN true).distance =
      ((0 : ℝ) : WithTop ℝ) ∧
    (computeDTW s s band_width DistanceMetric.EUCLIDEAN true).path =
      (List.range s.length).map (fun t => (t, t)) := by
  have hn : 0 < s.length := List.length_pos.mpr hs
  have heff : effBand s.length s.length band_width = (s.length : ℤ) := by
    rw [effBand, if_pos hbw, max_self]
  have hdist : costM s s (s.length : ℤ) DistanceMetric.EUCLIDEAN
      (s.length - 1) (s.length - 1) = ((0 : ℝ) : WithTop ℝ) :=
    costM_diag_self s (s.length - 1) (by omega)
  have hpath : backtrack (costM s s (s.length : ℤ) DistanceMetric.EUCLIDEAN)
      (s.length - 1) (s.length - 1) =
      ((List.range s.length).map (fun t => (t, t))).reverse := by
    rw [backtrack_diag (costM s s (s.length : ℤ) DistanceMetric.EUCLIDEAN) (s.length - 1)
      (fun t ht => costM_diag_self s t (by omega)) (costM_nonneg_euclid s s _),
      Nat.sub_add_cancel hn]
  constructor
  · simp only [computeDTW]
    rw [if_neg (by simp [hs])]
    simp [heff, hdist]
  · simp only [computeDTW]
    rw [if_neg (by simp [hs])]
    simp [heff, hdist, hpath]

/-- Witness for C5 at a concrete one-frame sequence. -/
theorem claim5_witness :
    (computeDTW [[(0 : ℝ)]] [[(0 : ℝ)]] (-1) DistanceMetric.EUCLIDEAN true).distance =
      ((0 : ℝ) : WithTop ℝ) ∧
    (computeDTW [[(0 : ℝ)]] [[(0 : ℝ)]] (-1) DistanceMetric.EUCLIDEAN true).path =
      (List.range (List.length [[(0 : ℝ)]])).map (fun t => (t, t)) :=
  claim5_dtw_self [[(0 : ℝ)]] (-1) (by simp) (by norm_num)

/-! ## Audio processor component (src/wasm/audio_processor.cpp) -/

def NUM_MEL_FILTERS : ℕ := 26
def NUM_MFCC_COEFFS : ℕ := 13
noncomputable def SAMPLE_RATE : ℝ := 44100
noncomputable def PRE_EMPHASIS : ℝ := 0.97

/-- Hamming window of a given length. -/
noncomputable def hamming_window (length : ℕ) : List ℝ :=
  (List.range length).map
    (fun i : ℕ => 0.54 - 0.46 * Real.cos (2 * Real.pi * i / ((length : ℝ) - 1)))

/-- The in-place pre-emphasis loop of `extractMFCC`, running from index `i`
down to 1: `frame[i] -= PRE_EMPHASIS * frame[i-1]`, each update reading the
still-unmodified `frame[i-1]`. -/
noncomputable def peAux : List ℝ → ℕ → Option (List ℝ)
  | a, 0 => some a
  | a, i + 1 => do
      let xi ← a.get? (i + 1)
      let xim ← a.get? i
      let a' ← setIdx? a (i + 1) (xi - PRE_EMPHASIS * xim)
      peAux a' i

/-- Pre-emphasis over the whole frame (loop starts at `frame.size() - 1`). -/
noncomputable def preEmphasis? (frame : List ℝ) : Option (List ℝ) :=
  peAux frame (frame.length - 1)

/-- The windowing loop: `frame[i] *= window[i]` for
`i < frame_length && i < frame.size()`. -/
noncomputable def applyWindow? (frame : List ℝ) (frame_length : ℕ) : Option (List ℝ) :=
  ofold (fun fr i => do
    let v ← fr.get? i
    let wi ← (hamming_window frame_length).get? i
    setIdx? fr i (v * wi)) (List.range (min frame_length frame.length)) frame

/-- Direct DFT magnitude: bins `0 .. N/2`. -/
noncomputable def dft? (signal : List ℝ) : Option (List ℝ) :=
  omap (fun k : ℕ => do
    let re ← osum (fun n => (signal.get? n).map
      (fun v => v * Real.cos (-2 * Real.pi * k * n / signal.length))) (List.range signal.length) 0
    let im ← osum (fun n => (signal.get? n).map
      (fun v => v * Real.sin (-2 * Real.pi * k * n / signal.length))) (List.range signal.length) 0
    pure (Real.sqrt (re * re + im * im))) (List.range (signal.length / 2 + 1))

noncomputable def hz_to_mel (hz : ℝ) : ℝ := 2595 * Real.logb 10 (1 + hz / 700)

noncomputable def mel_to_hz (mel : ℝ) : ℝ := 700 * ((10 : ℝ) ^ (mel / 2595) - 1)

/-- The `i`-th equally spaced Mel point, `i = 0 .. NUM_MEL_FILTERS + 1`. -/
noncomputable def mel_point (sample_rate : ℝ) (i : ℕ) : ℝ :=
  hz_to_mel 0 + i * (hz_to_mel (sample_rate / 2) - hz_to_mel 0) / (NUM_MEL_FILTERS + 1)

/-- The FFT bin of the `i`-th Mel point:
`(int) floor((nfft + 1) * mel_to_hz(mel_points[i]) / sample_rate)`. -/
noncomputable def bin_point (nfft : ℕ) (sample_rate : ℝ) (i : ℕ) : ℤ :=
  ⌊((nfft : ℝ) + 1) * mel_to_hz (mel_point sample_rate i) / sample_rate⌋

/-- One write `filterbank[row][k] = v` with both subscripts checked. -/
noncomputable def fbWrite (fb : List (List ℝ)) (row : ℕ) (k : ℤ) (v : ℝ) :
    Option (List (List ℝ)) := do
  let r ← fb.get? row
  let r' ← setIdxInt? r k v
  setIdx? fb row r'

/-- The integers `a, a+1, ..., b-1` (a C++ `for (int k = a; k < b; k++)`). -/
def intRange (a b : ℤ) : List ℤ :=
  (List.range (b - a).toNat).map (fun t : ℕ => a + (t : ℤ))

/-- `create_mel_filterbank`: 26 rows of length `nfft/2 + 1`, each triangular
filter rising over `[bin[m-1], bin[m])` and falling over `[bin[m], bin[m+1])`. -/
noncomputable def create_mel_filterbank? (nfft : ℕ) (sample_rate : ℝ) :
    Option (List (List ℝ)) :=
  ofold (fun fb m0 =>
    let m := m0 + 1
    let f_m_minus := bin_point nfft sample_rate (m - 1)
    let f_m := bin_point nfft sample_rate m
    let f_m_plus := bin_point nfft sample_rate (m + 1)
    do
      let fb1 ← ofold (fun fb k =>
        fbWrite fb (m - 1) k (((k - f_m_minus : ℤ) : ℝ) / ((f_m - f_m_minus : ℤ) : ℝ)))
        (intRange f_m_minus f_m) fb
      ofold (fun fb k =>
        fbWrite fb (m - 1) k (((f_m_plus - k : ℤ) : ℝ) / ((f_m_plus - f_m : ℤ) : ℝ)))
        (intRange f_m f_m_plus) fb1)
    (List.range NUM_MEL_FILTERS)
    (List.replicate NUM_MEL_FILTERS (List.replicate (nfft / 2 + 1) (0 : ℝ)))

/-- The mel-energy accumulation of `extractMFCC`: for each of the 26 filters,
sum `spectrum[j] * filterbank[i][j]` for `j < spectrum.size()` — the row
subscript `j` is bounded by the spectrum length, not the row length — then
`log(energy + 1e-10)`. -/
noncomputable def melEnergies? (spectrum : List ℝ) (filterbank : List (List ℝ)) :
    Option (List ℝ) :=
  omap (fun i => do
    let row ← filterbank.get? i
    let e ← osum (fun j => do
      let sj ← spectrum.get? j
      let fij ← row.get? j
      pure (sj * fij)) (List.range spectrum.length) 0
    pure (Real.log (e + 1e-10))) (List.range NUM_MEL_FILTERS)

/-- Non-normalised DCT-II of the mel energies. -/
noncomputable def dct? (signal : List ℝ) (num_coeffs : ℕ) : Option (List ℝ) :=
  omap (fun k : ℕ => osum (fun n => (signal.get? n).map
    (fun v => v * Real.cos (Real.pi * k * (2 * n + 1) / (2 * signal.length))))
    (List.range signal.length) 0) (List.range num_coeffs)

/-- `extractMFCC`: pre-emphasis, Hamming window, DFT, mel filterbank,
log-energies, DCT. -/
noncomputable def extractMFCC (audio_frame : List ℝ) (frame_length : ℕ)
    (num_coeffs : ℕ) : Option (List ℝ) := do
  let frame ← preEmphasis? audio_frame
  let frame2 ← applyWindow? frame frame_length
  let spectrum ← dft? frame2
  let filterbank ← create_mel_filterbank? frame_length SAMPLE_RATE
  let mel_energies ← melEnergies? spectrum filterbank
  dct? mel_energies num_coeffs

/-- C++ `static_cast<int>` of a double: truncation toward zero. -/
noncomputable def truncI (r : ℝ) : ℤ := if 0 ≤ r then ⌊r⌋ else ⌈r⌉

/-- `R(period) = sum_i frame[i] * frame[i + period]` for
`i < frame.size() - period`. -/
noncomputable def autocorrAt (audio_frame : List ℝ) (period : ℤ) : ℝ :=
  (List.range (audio_frame.length - period.toNat)).foldl
    (fun acc i => acc + audio_frame.getD i 0 * audio_frame.getD (i + period.toNat) 0) 0

/-- The lags visited by the pitch loop:
`period = min_period; period <= max_period && period < L; period++`. -/
def periodRange (min_period max_period : ℤ) (L : ℕ) : List ℤ :=
  (List.range (min (max_period + 1) (L : ℤ) - min_period).toNat).map
    (fun t : ℕ => min_period + (t : ℤ))

/-- `calculatePitch`: autocorrelation peak picking; strictly-greater update
starting from `(0.0, 0)`; returns `sample_rate / best_period` if a positive
peak was found, else `0.0`. -/
noncomputable def calculatePitch (audio_frame : List ℝ) (sample_rate : ℝ)
    (min_freq max_freq : ℝ) : ℝ :=
  let min_period := truncI (sample_rate / max_freq)
  let max_period := truncI (sample_rate / min_freq)
  let st := (periodRange min_period max_period audio_frame.length).foldl
    (fun (acc : ℝ × ℤ) period =>
      if autocorrAt audio_frame period > acc.1 then (autocorrAt audio_frame period, period)
      else acc) (0, 0)
  if st.2 > 0 then sample_rate / ((st.2 : ℤ) : ℝ) else 0

/-! ## Pre-emphasis (claim C6) -/

theorem getD_eq_of_get?' {α : Type} (l : List α) (n : ℕ) (d a : α) (h : l.get? n = some a) :
    l.getD n d = a := by
  simp [List.getD_eq_getElem?_getD, ← List.get?_eq_getElem?, h]

theorem getD_set_ne {α : Type} (l : List α) (k j : ℕ) (v d : α) (h : k ≠ j) :
    (l.set k v).getD j d = l.getD j d := by
  simp [List.getD_eq_getElem?_getD, ← List.get?_eq_getElem?, List.get?_set_ne v l h]

theorem getD_set_eq_of_lt {α : Type} (l : List α) (k : ℕ) (v d : α) (h : k < l.length) :
    (l.set k v).getD k d = v := by
  simp [List.getD_eq_getElem?_getD, ← List.get?_eq_getElem?, List.get?_set_eq_of_lt v h]

/-- Running the pre-emphasis loop from index `i` down to 1 modifies exactly
positions `1 .. i`, each becoming `a[j] - PRE_EMPHASIS * a[j-1]` in terms of
the *original* values, and leaves position 0 and positions above `i` intact. -/
theorem peAux_spec (i : ℕ) : ∀ a : List ℝ, i < a.length →
    ∃ b, peAux a i = some b ∧ b.length = a.length ∧
      (∀ j, j = 0 ∨ i < j → b.getD j 0 = a.getD j 0) ∧
      (∀ j, 1 ≤ j → j ≤ i → b.getD j 0 = a.getD j 0 - PRE_EMPHASIS * a.getD (j - 1) 0) := by
  induction i with
  | zero =>
    intro a _
    exact ⟨a, rfl, rfl, fun j _ => rfl, fun j hj1 hj0 => by omega⟩
  | succ i ih =>
    intro a hi
    obtain ⟨xi, hxi⟩ := exists_get?_of_lt a (i + 1) hi
    obtain ⟨xim, hxim⟩ := exists_get?_of_lt a i (by omega)
    set a' := a.set (i + 1) (xi - PRE_EMPHASIS * xim) with ha'
    have hlen' : a'.length = a.length := by simp [ha']
    obtain ⟨b, hb, hblen, hkeep, hmod⟩ := ih a' (by omega)
    have hstep : peAux a (i + 1) = some b := by
      rw [peAux]
      simp only [List.get?_eq_getElem?] at hxi hxim
      simp [hxi, hxim, setIdx?, hi, ← ha', hb]
    refine ⟨b, hstep, by omega, ?_, ?_⟩
    · intro j hj
      have hne : i + 1 ≠ j := by omega
      rw [hkeep j (by omega), ha', getD_set_ne a (i + 1) j _ 0 hne]
    · intro j hj1 hj
      rcases Nat.lt_or_ge j (i + 1) with hlt | hge
      · rw [hmod j hj1 (by omega), ha',
          getD_set_ne a (i + 1) j _ 0 (by omega),
          getD_set_ne a (i + 1) (j - 1) _ 0 (by omega)]
      · have hj' : j = i + 1 := by omega
        subst hj'
        simp only [Nat.add_sub_cancel]
        rw [hkeep (i + 1) (by omega), ha', getD_set_eq_of_lt a (i + 1) _ 0 hi,
          getD_eq_of_get?' a (i + 1) 0 xi hxi, getD_eq_of_get?' a i 0 xim hxim]

/-- Claim C6: the pre-emphasis stage succeeds on every frame and produces
`y[0] = x[0]` and `y[i] = x[i] - 0.97 * x[i-1]` for `1 <= i < L`, each update
reading the original `x[i-1]`. -/
theorem claim6_pre_emphasis (x : List ℝ) :
    ∃ y, preEmphasis? x = some y ∧ y.length = x.length ∧
      y.getD 0 0 = x.getD 0 0 ∧
      (∀ i, 1 ≤ i → i < x.length →
        y.getD i 0 = x.getD i 0 - PRE_EMPHASIS * x.getD (i - 1) 0) := by
  cases hx : x with
  | nil => exact ⟨[], rfl, rfl, rfl, fun i hi1 hi => by simp at hi⟩
  | cons v vs =>
    rw [← hx]
    have hlen : 0 < x.length := by rw [hx]; simp
    obtain ⟨b, hb, hblen, hkeep, hmod⟩ := peAux_spec (x.length - 1) x (by omega)
    refine ⟨b, ?_, hblen, hkeep 0 (Or.inl rfl), ?_⟩
    · rw [preEmphasis?, hb]
    · intro i hi1 hi
      exact hmod i hi1 (by omega)

/-- Witness for C6 at the concrete frame `[1, 2]`. -/
theorem claim6_witness :
    ∃ y, preEmphasis? [(1 : ℝ), 2] = some y ∧
      y.getD 1 0 = 2 - PRE_EMPHASIS * 1 := by
  obtain ⟨y, hy, -, -, hmod⟩ := claim6_pre_emphasis [(1 : ℝ), 2]
  refine ⟨y, hy, ?_⟩
  have := hmod 1 le_rfl (by norm_num)
  simpa using this

/-! ## Pitch estimation (claim C8) -/

/-- Invariant of the peak-picking fold over lags `a, a+1, ..., a+c-1`: either
nothing beat the initial `(0.0, 0)` and every visited lag has nonpositive
autocorrelation, or the state holds the first lag attaining the (positive)
maximum. -/
theorem pitch_fold_spec (x : List ℝ) (a : ℤ) : ∀ c : ℕ,
    (((List.range c).map (fun t : ℕ => a + (t : ℤ))).foldl
        (fun (acc : ℝ × ℤ) period =>
          if autocorrAt x period > acc.1 then (autocorrAt x period, period) else acc)
        (0, 0) = ((0 : ℝ), (0 : ℤ)) ∧
      ∀ k : ℕ, k < c → autocorrAt x (a + k) ≤ 0) ∨
    (∃ k' : ℕ, k' < c ∧
      ((List.range c).map (fun t : ℕ => a + (t : ℤ))).foldl
        (fun (acc : ℝ × ℤ) period =>
          if autocorrAt x period > acc.1 then (autocorrAt x period, period) else acc)
        (0, 0) = (autocorrAt x (a + k'), a + k') ∧
      0 < autocorrAt x (a + k') ∧
      (∀ k : ℕ, k < c → autocorrAt x (a + k) ≤ autocorrAt x (a + k')) ∧
      (∀ k : ℕ, k < k' → autocorrAt x (a + k) < autocorrAt x (a + k'))) := by
  intro c
  induction c with
  | zero => exact Or.inl ⟨rfl, fun k hk => absurd hk (Nat.not_lt_zero k)⟩
  | succ c ih =>
    rw [List.range_succ, List.map_append, List.foldl_append]
    rcases ih with ⟨hst, hle⟩ | ⟨k', hk'c, hst, hpos, hmax, hstrict⟩
    · rw [hst]
      simp only [List.map_cons, List.map_nil, List.foldl_cons, List.foldl_nil]
      by_cases hgt : autocorrAt x (a + c) > 0
      · rw [if_pos hgt]
        refine Or.inr ⟨c, Nat.lt_succ_self c, rfl, hgt, ?_, ?_⟩
        · intro k hk
          rcases Nat.lt_or_ge k c with hkc | hkc
          · exact le_of_lt (lt_of_le_of_lt (hle k hkc) hgt)
          · have : k = c := by omega
            rw [this]
        · intro k hk
          exact lt_of_le_of_lt (hle k hk) hgt
      · rw [if_neg hgt]
        refine Or.inl ⟨rfl, ?_⟩
        intro k hk
        rcases Nat.lt_or_ge k c with hkc | hkc
        · exact hle k hkc
        · have : k = c := by omega
          rw [this]
          exact not_lt.mp hgt
    · rw [hst]
      simp only [List.map_cons, List.map_nil, List.foldl_cons, List.foldl_nil]
      by_cases hgt : autocorrAt x (a + c) > autocorrAt x (a + k')
      · rw [if_pos hgt]
        refine Or.inr ⟨c, Nat.lt_succ_self c, rfl, lt_trans hpos hgt, ?_, ?_⟩
        · intro k hk
          rcases Nat.lt_or_ge k c with hkc | hkc
          · exact le_of_lt (lt_of_le_of_lt (hmax k hkc) hgt)
          · have : k = c := by omega
            rw [this]
        · intro k hk
          exact lt_of_le_of_lt (hmax k (by omega)) hgt
      · rw [if_neg hgt]
        refine Or.inr ⟨k', by omega, rfl, hpos, ?_, hstrict⟩
        intro k hk
        rcases Nat.lt_or_ge k c with hkc | hkc
        · exact hmax k hkc
        · have : k = c := by omega
          rw [this]
          exact not_lt.mp hgt

/-- Claim C8: `calculatePitch` returns `sample_rate / t` where `t` is the
smallest lag in `[floor(sr/maxHz), floor(sr/minHz)]` with `t < L` maximising
the autocorrelation `R(t) = sum_i x[i] * x[i+t]`, provided some lag in that
range has strictly positive autocorrelation; otherwise it returns `0.0`.
(Stated for nonnegative sample rate and positive frequency bounds, so the
C++ int casts are floors.) -/
theorem claim8_pitch_argmax (x : List ℝ) (sample_rate min_freq max_freq : ℝ)
    (hsr : 0 ≤ sample_rate) (hminf : 0 < min_freq) (hmaxf : 0 < max_freq) :
    (calculatePitch x sample_rate min_freq max_freq = 0 ∧
      ∀ t : ℤ, ⌊sample_rate / max_freq⌋ ≤ t → t ≤ ⌊sample_rate / min_freq⌋ →
        t < (x.length : ℤ) → autocorrAt x t ≤ 0) ∨
    (∃ t : ℤ, ⌊sample_rate / max_freq⌋ ≤ t ∧ t ≤ ⌊sample_rate / min_freq⌋ ∧
      t < (x.length : ℤ) ∧ 0 < autocorrAt x t ∧
      (∀ u : ℤ, ⌊sample_rate / max_freq⌋ ≤ u → u ≤ ⌊sample_rate / min_freq⌋ →
        u < (x.length : ℤ) → autocorrAt x u ≤ autocorrAt x t) ∧
      (∀ u : ℤ, ⌊sample_rate / max_freq⌋ ≤ u → u < t → autocorrAt x u < autocorrAt x t) ∧
      calculatePitch x sample_rate min_freq max_freq = sample_rate / (t : ℝ)) := by
  have ht1 : truncI (sample_rate / max_freq) = ⌊sample_rate / max_freq⌋ := by
    rw [truncI, if_pos (div_nonneg hsr hmaxf.le)]
  have ht2 : truncI (sample_rate / min_freq) = ⌊sample_rate / min_freq⌋ := by
    rw [truncI, if_pos (div_nonneg hsr hminf.le)]
  have hmp0 : 0 ≤ ⌊sample_rate / max_freq⌋ := Int.floor_nonneg.mpr (div_nonneg hsr hmaxf.le)
  set mp := ⌊sample_rate / max_freq⌋ with hmp
  set Mp := ⌊sample_rate / min_freq⌋ with hMp
  set c := (min (Mp + 1) (x.length : ℤ) - mp).toNat with hc
  have hrange : periodRange (truncI (sample_rate / max_freq))
      (truncI (sample_rate / min_freq)) x.length =
      (List.range c).map (fun t : ℕ => mp + (t : ℤ)) := by
    rw [periodRange, ht1, ht2]
  have hiff : ∀ t : ℤ, (mp ≤ t ∧ t ≤ Mp ∧ t < (x.length : ℤ)) ↔
      ∃ k : ℕ, k < c ∧ t = mp + (k : ℤ) := by
    intro t
    constructor
    · rintro ⟨h1, h2, h3⟩
      refine ⟨(t - mp).toNat, by omega, by omega⟩
    · rintro ⟨k, hk, rfl⟩
      omega
  rcases pitch_fold_spec x mp c with ⟨hst, hle⟩ | ⟨k', hk'c, hst, hpos, hmax, hstrict⟩
  · left
    constructor
    · rw [calculatePitch, hrange, hst]
      norm_num
    · intro t h1 h2 h3
      obtain ⟨k, hk, rfl⟩ := (hiff t).mp ⟨h1, h2, h3⟩
      exact hle k hk
  · right
    refine ⟨mp + k', by omega, ?_, ?_, hpos, ?_, ?_, ?_⟩
    · omega
    · omega
    · intro u h1 h2 h3
      obtain ⟨k, hk, rfl⟩ := (hiff u).mp ⟨h1, h2, h3⟩
      exact hmax k hk
    · intro u h1 h2
      have hky : ∃ k : ℕ, k < k' ∧ u = mp + (k : ℤ) := ⟨(u - mp).toNat, by omega, by omega⟩
      obtain ⟨k, hk, rfl⟩ := hky
      exact hstrict k hk
    · rw [calculatePitch, hrange, hst]
      rcases lt_or_eq_of_le (show (0 : ℤ) ≤ mp + k' by omega) with hpos' | heq
      · rw [if_pos hpos']
      · rw [if_neg (by omega)]
        rw [← heq]
        norm_num

/-- Witness for C8 at a concrete call (`sr = 4`, band `[80..400]` replaced by
`[1..2]` Hz, empty frame). -/
theorem claim8_witness :
    (calculatePitch [] 4 1 2 = 0 ∧
      ∀ t : ℤ, ⌊(4 : ℝ) / 2⌋ ≤ t → t ≤ ⌊(4 : ℝ) / 1⌋ →
        t < ((List.length ([] : List ℝ)) : ℤ) → autocorrAt [] t ≤ 0) ∨
    (∃ t : ℤ, ⌊(4 : ℝ) / 2⌋ ≤ t ∧ t ≤ ⌊(4 : ℝ) / 1⌋ ∧
      t < ((List.length ([] : List ℝ)) : ℤ) ∧ 0 < autocorrAt [] t ∧
      (∀ u : ℤ, ⌊(4 : ℝ) / 2⌋ ≤ u → u ≤ ⌊(4 : ℝ) / 1⌋ →
        u < ((List.length ([] : List ℝ)) : ℤ) → autocorrAt [] u ≤ autocorrAt [] t) ∧
      (∀ u : ℤ, ⌊(4 : ℝ) / 2⌋ ≤ u → u < t → autocorrAt [] u < autocorrAt [] t) ∧
      calculatePitch [] 4 1 2 = 4 / (t : ℝ)) :=
  claim8_pitch_argmax [] 4 1 2 (by norm_num) (by norm_num) (by norm_num)

/-! ## MFCC access-safety lemmas (claim C9) -/

theorem preEmphasis?_some (x : List ℝ) :
    ∃ y, preEmphasis? x = some y ∧ y.length = x.length := by
  cases hx : x with
  | nil => exact ⟨[], rfl, rfl⟩
  | cons v vs =>
    rw [← hx]
    have hlen : 0 < x.length := by rw [hx]; simp
    obtain ⟨b, hb, hblen, -, -⟩ := peAux_spec (x.length - 1) x (by omega)
    exact ⟨b, by rw [preEmphasis?, hb], hblen⟩

theorem hamming_window_length (L : ℕ) : (hamming_window L).length = L := by
  simp [hamming_window]

theorem applyWindow?_some (fr : List ℝ) (L : ℕ) :
    ∃ y, applyWindow? fr L = some y ∧ y.length = fr.length := by
  rw [applyWindow?]
  obtain ⟨y, hy, hlen⟩ := ofold_some_of (P := fun l : List ℝ => l.length = fr.length)
    (f := fun fr' i => do
      let v ← fr'.get? i
      let wi ← (hamming_window L).get? i
      setIdx? fr' i (v * wi))
    (l := List.range (min L fr.length))
    (b := fr) rfl (fun fr' i hP hi => by
      have hiR : i < min L fr.length := List.mem_range.mp hi
      obtain ⟨v, hv⟩ := exists_get?_of_lt fr' i (by omega)
      obtain ⟨wi, hwi⟩ := exists_get?_of_lt (hamming_window L) i
        (by rw [hamming_window_length]; omega)
      refine ⟨fr'.set i (v * wi), ?_, by simp [hP]⟩
      simp only [List.get?_eq_getElem?] at hv hwi
      simp [hv, hwi, setIdx?, show i < fr'.length by omega])
  exact ⟨y, hy, hlen⟩

theorem osum_some_of {α : Type} {f : α → Option ℝ} {l : List α}
    (h : ∀ a ∈ l, (f a).isSome) (acc : ℝ) : ∃ v, osum f l acc = some v := by
  rw [osum]
  obtain ⟨v, hv, -⟩ := ofold_some_of (P := fun _ : ℝ => True)
    (f := fun s a => (f a).map (s + ·)) (l := l) (b := acc) trivial
    (fun b a _ ha => by
      obtain ⟨v, hv⟩ := Option.isSome_iff_exists.mp (h a ha)
      exact ⟨b + v, by simp [hv], trivial⟩)
  exact ⟨v, hv⟩

theorem dft?_some (s : List ℝ) :
    ∃ d, dft? s = some d ∧ d.length = s.length / 2 + 1 := by
  rw [dft?]
  obtain ⟨d, hd, hlen⟩ := omap_some_of (l := List.range (s.length / 2 + 1))
    (f := fun k : ℕ => do
      let re ← osum (fun n => (s.get? n).map
        (fun v => v * Real.cos (-2 * Real.pi * k * n / s.length))) (List.range s.length) 0
      let im ← osum (fun n => (s.get? n).map
        (fun v => v * Real.sin (-2 * Real.pi * k * n / s.length))) (List.range s.length) 0
      pure (Real.sqrt (re * re + im * im)))
    (fun k hk => by
      obtain ⟨re, hre⟩ := osum_some_of (f := fun n => (s.get? n).map
        (fun v => v * Real.cos (-2 * Real.pi * k * n / s.length)))
        (fun n hn => by
          obtain ⟨v, hv⟩ := exists_get?_of_lt s n (List.mem_range.mp hn)
          simp only [List.get?_eq_getElem?] at hv
          simp [hv]) 0
      obtain ⟨im, him⟩ := osum_some_of (f := fun n => (s.get? n).map
        (fun v => v * Real.sin (-2 * Real.pi * k * n / s.length)))
        (fun n hn => by
          obtain ⟨v, hv⟩ := exists_get?_of_lt s n (List.mem_range.mp hn)
          simp only [List.get?_eq_getElem?] at hv
          simp [hv]) 0
      simp only [List.get?_eq_getElem?, Option.bind_eq_bind, Option.pure_def, neg_mul]
        at hre him
      simp [hre, him])
  exact ⟨d, hd, by rw [hlen, List.length_range]⟩

theorem dct?_some (s : List ℝ) (c : ℕ) : ∃ d, dct? s c = some d := by
  rw [dct?]
  obtain ⟨d, hd, -⟩ := omap_some_of (l := List.range c)
    (f := fun k : ℕ => osum (fun n => (s.get? n).map
      (fun v => v * Real.cos (Real.pi * k * (2 * n + 1) / (2 * s.length))))
      (List.range s.length) 0)
    (fun k hk => by
      obtain ⟨v, hv⟩ := osum_some_of (f := fun n => (s.get? n).map
        (fun v => v * Real.cos (Real.pi * k * (2 * n + 1) / (2 * s.length))))
        (fun n hn => by
          obtain ⟨v, hv⟩ := exists_get?_of_lt s n (List.mem_range.mp hn)
          simp only [List.get?_eq_getElem?] at hv
          simp [hv]) 0
      simp only [List.get?_eq_getElem?, Option.bind_eq_bind, Option.pure_def] at hv
      simp [hv])
  exact ⟨d, hd⟩

theorem hz_to_mel_zero : hz_to_mel 0 = 0 := by
  simp [hz_to_mel]

theorem high_mel_nonneg : 0 ≤ hz_to_mel (SAMPLE_RATE / 2) := by
  rw [hz_to_mel]
  exact mul_nonneg (by norm_num)
    (Real.logb_nonneg (by norm_num) (by norm_num [SAMPLE_RATE]))

theorem mel_point_nonneg (i : ℕ) : 0 ≤ mel_point SAMPLE_RATE i := by
  rw [mel_point, hz_to_mel_zero, sub_zero, zero_add]
  exact div_nonneg (mul_nonneg (Nat.cast_nonneg i) high_mel_nonneg)
    (by norm_num [NUM_MEL_FILTERS])

theorem mel_point_le_high (i : ℕ) (hi : i ≤ NUM_MEL_FILTERS + 1) :
    mel_point SAMPLE_RATE i ≤ hz_to_mel (SAMPLE_RATE / 2) := by
  rw [mel_point, hz_to_mel_zero, sub_zero, zero_add]
  have hi27 : (i : ℝ) ≤ 27 := by
    have hin : i ≤ 27 := by simpa [NUM_MEL_FILTERS] using hi
    exact_mod_cast hin
  have hH := high_mel_nonneg
  rw [show ((NUM_MEL_FILTERS : ℝ) + 1) = 27 by norm_num [NUM_MEL_FILTERS],
    div_le_iff (by norm_num : (0 : ℝ) < 27)]
  nlinarith

theorem one_le_rpow_ten (x : ℝ) (h : 0 ≤ x) : (1 : ℝ) ≤ (10 : ℝ) ^ x := by
  rw [show (1 : ℝ) = (10 : ℝ) ^ (0 : ℝ) by rw [Real.rpow_zero]]
  exact (Real.rpow_le_rpow_left_iff (by norm_num)).mpr h

theorem mel_to_hz_nonneg (m : ℝ) (hm : 0 ≤ m) : 0 ≤ mel_to_hz m := by
  rw [mel_to_hz]
  have := one_le_rpow_ten (m / 2595) (by positivity)
  nlinarith

theorem mel_to_hz_le_half_sr (m : ℝ) (hm : m ≤ hz_to_mel (SAMPLE_RATE / 2)) :
    mel_to_hz m ≤ SAMPLE_RATE / 2 := by
  have h1 : (10 : ℝ) ^ (m / 2595) ≤ (10 : ℝ) ^ (hz_to_mel (SAMPLE_RATE / 2) / 2595) :=
    (Real.rpow_le_rpow_left_iff (by norm_num)).mpr
      ((div_le_div_right (by norm_num : (0 : ℝ) < 2595)).mpr hm)
  have h2 : (10 : ℝ) ^ (hz_to_mel (SAMPLE_RATE / 2) / 2595) = 1 + (SAMPLE_RATE / 2) / 700 := by
    rw [hz_to_mel, mul_div_cancel_left₀ _ (by norm_num : (2595 : ℝ) ≠ 0)]
    exact Real.rpow_logb (by norm_num) (by norm_num) (by norm_num [SAMPLE_RATE])
  rw [h2] at h1
  rw [mel_to_hz]
  norm_num [SAMPLE_RATE] at h1 ⊢
  linarith

theorem floor_intCast_div_two (q : ℤ) : ⌊((q : ℝ)) / 2⌋ = q / 2 := by
  apply Int.floor_eq_iff.mpr
  constructor
  · have h1 : 2 * (q / 2) ≤ q := by omega
    have h2 : ((2 * (q / 2) : ℤ) : ℝ) ≤ ((q : ℤ) : ℝ) := by exact_mod_cast h1
    push_cast at h2
    push_cast
    linarith
  · have h1 : q < 2 * (q / 2) + 2 := by omega
    have h2 : ((q : ℤ) : ℝ) < ((2 * (q / 2) + 2 : ℤ) : ℝ) := by exact_mod_cast h1
    push_cast at h2
    push_cast
    linarith

theorem bin_point_nonneg (nfft : ℕ) (i : ℕ) : 0 ≤ bin_point nfft SAMPLE_RATE i := by
  rw [bin_point]
  apply Int.le_floor.mpr
  push_cast
  exact div_nonneg (mul_nonneg (by positivity) (mel_to_hz_nonneg _ (mel_point_nonneg i)))
    (by norm_num [SAMPLE_RATE])

theorem bin_point_le (nfft : ℕ) (i : ℕ) (hi : i ≤ NUM_MEL_FILTERS + 1) :
    bin_point nfft SAMPLE_RATE i ≤ ((nfft : ℤ) + 1) / 2 := by
  rw [bin_point]
  have harg : ((nfft : ℝ) + 1) * mel_to_hz (mel_point SAMPLE_RATE i) / SAMPLE_RATE ≤
      ((nfft : ℝ) + 1) / 2 := by
    have hle := mel_to_hz_le_half_sr _ (mel_point_le_high i hi)
    have hnn := mel_to_hz_nonneg _ (mel_point_nonneg i)
    rw [div_le_div_iff (by norm_num [SAMPLE_RATE]) (by norm_num : (0 : ℝ) < 2)]
    norm_num [SAMPLE_RATE] at hle ⊢
    nlinarith [Nat.cast_nonneg (α := ℝ) nfft]
  calc ⌊((nfft : ℝ) + 1) * mel_to_hz (mel_point SAMPLE_RATE i) / SAMPLE_RATE⌋
      ≤ ⌊((nfft : ℝ) + 1) / 2⌋ := Int.floor_le_floor harg
    _ = ((nfft : ℤ) + 1) / 2 := by
        rw [show ((nfft : ℝ) + 1) = (((nfft : ℤ) + 1 : ℤ) : ℝ) by push_cast; ring]
        exact floor_intCast_div_two _

theorem intRange_mem (a b k : ℤ) : k ∈ intRange a b ↔ a ≤ k ∧ k < b := by
  rw [intRange]
  simp only [List.mem_map, List.mem_range]
  constructor
  · rintro ⟨t, ht, rfl⟩
    omega
  · rintro ⟨h1, h2⟩
    exact ⟨(k - a).toNat, by omega, by omega⟩

theorem fbWrite_pres (fb : List (List ℝ)) (row : ℕ) (k : ℤ) (v : ℝ) (q : ℕ)
    (hlen : fb.length = NUM_MEL_FILTERS) (hrows : ∀ r ∈ fb, r.length = q)
    (hrow : row < NUM_MEL_FILTERS) (hk0 : 0 ≤ k) (hkq : k.toNat < q) :
    ∃ fb', fbWrite fb row k v = some fb' ∧
      fb'.length = NUM_MEL_FILTERS ∧ ∀ r ∈ fb', r.length = q := by
  obtain ⟨r, hr⟩ := exists_get?_of_lt fb row (by omega)
  have hrl : r.length = q := hrows r (List.get?_mem hr)
  refine ⟨fb.set row (r.set k.toNat v), ?_, by simp [hlen], ?_⟩
  · rw [fbWrite]
    simp only [List.get?_eq_getElem?] at hr
    simp [hr, setIdxInt?, setIdx?, hk0, hrl, hkq, hlen, hrow,
      show k < (q : ℤ) by omega]
  · intro r' hr'
    rcases List.mem_or_eq_of_mem_set hr' with h | h
    · exact hrows r' h
    · rw [h]
      simp [hrl]

theorem fb_ofold_writes (q row : ℕ) (hrow : row < NUM_MEL_FILTERS) (lo hi : ℤ)
    (hlo : 0 ≤ lo) (hhi : hi ≤ (q : ℤ)) (g : ℤ → ℝ) (fb : List (List ℝ))
    (hlen : fb.length = NUM_MEL_FILTERS) (hrows : ∀ r ∈ fb, r.length = q) :
    ∃ fb', ofold (fun fb k => fbWrite fb row k (g k)) (intRange lo hi) fb = some fb' ∧
      fb'.length = NUM_MEL_FILTERS ∧ ∀ r ∈ fb', r.length = q := by
  obtain ⟨fb', hfb', hP⟩ := ofold_some_of
    (P := fun fb : List (List ℝ) => fb.length = NUM_MEL_FILTERS ∧ ∀ r ∈ fb, r.length = q)
    (f := fun fb k => fbWrite fb row k (g k)) (l := intRange lo hi) (b := fb)
    ⟨hlen, hrows⟩
    (fun fb'' k hP hk => by
      obtain ⟨h1, h2⟩ := hP
      obtain ⟨hk1, hk2⟩ := (intRange_mem lo hi k).mp hk
      exact fbWrite_pres fb'' row k (g k) q h1 h2 hrow (by omega) (by omega))
  exact ⟨fb', hfb', hP⟩

theorem create_mel_filterbank?_some (nfft : ℕ) :
    ∃ fb, create_mel_filterbank? nfft SAMPLE_RATE = some fb ∧
      fb.length = NUM_MEL_FILTERS ∧ ∀ r ∈ fb, r.length = nfft / 2 + 1 := by
  rw [create_mel_filterbank?]
  obtain ⟨fb, hfb, hP⟩ := ofold_some_of
    (P := fun fb : List (List ℝ) =>
      fb.length = NUM_MEL_FILTERS ∧ ∀ r ∈ fb, r.length = nfft / 2 + 1)
    (f := fun fb m0 =>
      let m := m0 + 1
      let f_m_minus := bin_point nfft SAMPLE_RATE (m - 1)
      let f_m := bin_point nfft SAMPLE_RATE m
      let f_m_plus := bin_point nfft SAMPLE_RATE (m + 1)
      do
        let fb1 ← ofold (fun fb k =>
          fbWrite fb (m - 1) k (((k - f_m_minus : ℤ) : ℝ) / ((f_m - f_m_minus : ℤ) : ℝ)))
          (intRange f_m_minus f_m) fb
        ofold (fun fb k =>
          fbWrite fb (m - 1) k (((f_m_plus - k : ℤ) : ℝ) / ((f_m_plus - f_m : ℤ) : ℝ)))
          (intRange f_m f_m_plus) fb1)
    (l := List.range NUM_MEL_FILTERS)
    (b := List.replicate NUM_MEL_FILTERS (List.replicate (nfft / 2 + 1) (0 : ℝ)))
    ⟨by simp, fun r hr => by rw [List.eq_of_mem_replicate hr]; simp⟩
    (fun fb m0 hPfb hm0 => by
      have hm26 : m0 < NUM_MEL_FILTERS := List.mem_range.mp hm0
      have hq : ((nfft : ℤ) + 1) / 2 ≤ ((nfft / 2 + 1 : ℕ) : ℤ) := by omega
      obtain ⟨fb1, hfb1, hP1⟩ := fb_ofold_writes (nfft / 2 + 1) m0 hm26
        (bin_point nfft SAMPLE_RATE m0) (bin_point nfft SAMPLE_RATE (m0 + 1))
        (bin_point_nonneg nfft m0)
        (le_trans (bin_point_le nfft (m0 + 1) (by simp [NUM_MEL_FILTERS] at hm26 ⊢; omega)) hq)
        (fun k => ((k - bin_point nfft SAMPLE_RATE m0 : ℤ) : ℝ) /
          ((bin_point nfft SAMPLE_RATE (m0 + 1) - bin_point nfft SAMPLE_RATE m0 : ℤ) : ℝ))
        fb hPfb.1 hPfb.2
      obtain ⟨fb2, hfb2, hP2⟩ := fb_ofold_writes (nfft / 2 + 1) m0 hm26
        (bin_point nfft SAMPLE_RATE (m0 + 1)) (bin_point nfft SAMPLE_RATE (m0 + 2))
        (bin_point_nonneg nfft (m0 + 1))
        (le_trans (bin_point_le nfft (m0 + 2) (by simp [NUM_MEL_FILTERS] at hm26 ⊢; omega)) hq)
        (fun k => ((bin_point nfft SAMPLE_RATE (m0 + 2) - k : ℤ) : ℝ) /
          ((bin_point nfft SAMPLE_RATE (m0 + 2) - bin_point nfft SAMPLE_RATE (m0 + 1) : ℤ) : ℝ))
        fb1 hP1.1 hP1.2
      refine ⟨fb2, ?_, hP2⟩
      have h1 : ofold (fun fb k =>
          fbWrite fb m0 k (((k - bin_point nfft SAMPLE_RATE m0 : ℤ) : ℝ) /
            ((bin_point nfft SAMPLE_RATE (m0 + 1) - bin_point nfft SAMPLE_RATE m0 : ℤ) : ℝ)))
          (intRange (bin_point nfft SAMPLE_RATE m0) (bin_point nfft SAMPLE_RATE (m0 + 1)))
          fb = some fb1 := hfb1
      have h2 : ofold (fun fb k =>
          fbWrite fb m0 k (((bin_point nfft SAMPLE_RATE (m0 + 2) - k : ℤ) : ℝ) /
            ((bin_point nfft SAMPLE_RATE (m0 + 2) - bin_point nfft SAMPLE_RATE (m0 + 1) : ℤ) : ℝ)))
          (intRange (bin_point nfft SAMPLE_RATE (m0 + 1)) (bin_point nfft SAMPLE_RATE (m0 + 2)))
          fb1 = some fb2 := hfb2
      show (ofold (fun fb k =>
          fbWrite fb m0 k (((k - bin_point nfft SAMPLE_RATE m0 : ℤ) : ℝ) /
            ((bin_point nfft SAMPLE_RATE (m0 + 1) - bin_point nfft SAMPLE_RATE m0 : ℤ) : ℝ)))
          (intRange (bin_point nfft SAMPLE_RATE m0) (bin_point nfft SAMPLE_RATE (m0 + 1)))
          fb).bind (fun fb1 => ofold (fun fb k =>
          fbWrite fb m0 k (((bin_point nfft SAMPLE_RATE (m0 + 2) - k : ℤ) : ℝ) /
            ((bin_point nfft SAMPLE_RATE (m0 + 2) - bin_point nfft SAMPLE_RATE (m0 + 1) : ℤ) : ℝ)))
          (intRange (bin_point nfft SAMPLE_RATE (m0 + 1)) (bin_point nfft SAMPLE_RATE (m0 + 2)))
          fb1) = some fb2
      rw [h1, Option.some_bind, h2])
  exact ⟨fb, hfb, hP⟩

theorem osum_none_mid {α : Type} (f : α → Option ℝ) (l1 l2 : List α) (a : α)
    (h1 : ∀ u ∈ l1, (f u).isSome) (h2 : f a = none) (acc : ℝ) :
    osum f (l1 ++ a :: l2) acc = none := by
  rw [osum, ofold_append]
  obtain ⟨v, hv, -⟩ := ofold_some_of (P := fun _ : ℝ => True)
    (f := fun s u => (f u).map (s + ·)) (l := l1) (b := acc) trivial
    (fun b u _ hu => by
      obtain ⟨w, hw⟩ := Option.isSome_iff_exists.mp (h1 u hu)
      exact ⟨b + w, by simp [hw], trivial⟩)
  rw [hv, Option.some_bind, ofold, h2]
  simp

theorem osum_range_none (f : ℕ → Option ℝ) (n r : ℕ) (hr : r < n)
    (h1 : ∀ u, u < r → (f u).isSome) (h2 : f r = none) (acc : ℝ) :
    osum f (List.range n) acc = none := by
  rw [show n = r + (n - r - 1 + 1) by omega, List.range_add, List.range_succ_eq_map]
  simp only [List.map_cons, add_zero]
  exact osum_none_mid f (List.range r) _ r (fun u hu => h1 u (List.mem_range.mp hu)) h2 acc

theorem melEnergies?_some (spectrum : List ℝ) (fb : List (List ℝ))
    (hlen : fb.length = NUM_MEL_FILTERS)
    (hrows : ∀ r ∈ fb, spectrum.length ≤ r.length) :
    ∃ me, melEnergies? spectrum fb = some me := by
  rw [melEnergies?]
  obtain ⟨me, hme, -⟩ := omap_some_of (l := List.range NUM_MEL_FILTERS)
    (f := fun i => do
      let row ← fb.get? i
      let e ← osum (fun j => do
        let sj ← spectrum.get? j
        let fij ← row.get? j
        pure (sj * fij)) (List.range spectrum.length) 0
      pure (Real.log (e + 1e-10)))
    (fun i hi => by
      obtain ⟨row, hrow⟩ := exists_get?_of_lt fb i (by rw [hlen]; exact List.mem_range.mp hi)
      have hrlen : spectrum.length ≤ row.length := hrows row (List.get?_mem hrow)
      obtain ⟨e, he⟩ := osum_some_of (f := fun j => do
        let sj ← spectrum.get? j
        let fij ← row.get? j
        pure (sj * fij))
        (fun j hj => by
          obtain ⟨sj, hsj⟩ := exists_get?_of_lt spectrum j (List.mem_range.mp hj)
          obtain ⟨fij, hfij⟩ := exists_get?_of_lt row j
            (lt_of_lt_of_le (List.mem_range.mp hj) hrlen)
          simp only [List.get?_eq_getElem?] at hsj hfij
          simp [hsj, hfij]) 0
      simp only [List.get?_eq_getElem?] at hrow
      simp only [List.get?_eq_getElem?, Option.bind_eq_bind, Option.pure_def] at he
      simp [hrow, he])
  exact ⟨me, hme⟩

theorem melEnergies?_none (spectrum : List ℝ) (fb : List (List ℝ))
    (hlen : fb.length = NUM_MEL_FILTERS)
    (hrows : ∀ r ∈ fb, r.length < spectrum.length) :
    melEnergies? spectrum fb = none := by
  rw [melEnergies?,
    show List.range NUM_MEL_FILTERS = 0 :: (List.range 25).map Nat.succ by
      rw [show NUM_MEL_FILTERS = 25 + 1 by rw [NUM_MEL_FILTERS], List.range_succ_eq_map]]
  apply omap_none_head
  obtain ⟨row, hrow⟩ := exists_get?_of_lt fb 0 (by rw [hlen, NUM_MEL_FILTERS]; omega)
  have hrlen : row.length < spectrum.length := hrows row (List.get?_mem hrow)
  have hosum : osum (fun j => do
      let sj ← spectrum.get? j
      let fij ← row.get? j
      pure (sj * fij)) (List.range spectrum.length) 0 = none := by
    apply osum_range_none _ _ row.length hrlen
    · intro u hu
      obtain ⟨sj, hsj⟩ := exists_get?_of_lt spectrum u (by omega)
      obtain ⟨fij, hfij⟩ := exists_get?_of_lt row u hu
      simp only [List.get?_eq_getElem?] at hsj hfij
      simp [hsj, hfij]
    · obtain ⟨sj, hsj⟩ := exists_get?_of_lt spectrum row.length hrlen
      have hnone : row.get? row.length = none := by
        simp [List.get?_eq_getElem?]
      simp only [List.get?_eq_getElem?] at hsj hnone
      simp [hsj, hnone]
  simp only [List.get?_eq_getElem?] at hrow
  simp only [List.get?_eq_getElem?, Option.bind_eq_bind, Option.pure_def] at hosum
  simp [hrow, hosum]

theorem extractMFCC_isSome_of (x : List ℝ) (L c : ℕ) (hlen : x.length / 2 ≤ L / 2) :
    (extractMFCC x L c).isSome := by
  obtain ⟨y1, h1, hl1⟩ := preEmphasis?_some x
  obtain ⟨y2, h2, hl2⟩ := applyWindow?_some y1 L
  obtain ⟨sp, h3, hl3⟩ := dft?_some y2
  obtain ⟨fbk, h4, hfl, hfr⟩ := create_mel_filterbank?_some L
  have hsp : sp.length = x.length / 2 + 1 := by rw [hl3, hl2, hl1]
  obtain ⟨me, h5⟩ := melEnergies?_some sp fbk hfl
    (fun r hr => by rw [hfr r hr, hsp]; omega)
  obtain ⟨d, h6⟩ := dct?_some me c
  rw [extractMFCC]
  simp [h1, h2, h3, h4, h5, h6]

theorem extractMFCC_none_of (x : List ℝ) (L c : ℕ) (hlen : L / 2 < x.length / 2) :
    extractMFCC x L c = none := by
  obtain ⟨y1, h1, hl1⟩ := preEmphasis?_some x
  obtain ⟨y2, h2, hl2⟩ := applyWindow?_some y1 L
  obtain ⟨sp, h3, hl3⟩ := dft?_some y2
  obtain ⟨fbk, h4, hfl, hfr⟩ := create_mel_filterbank?_some L
  have hsp : sp.length = x.length / 2 + 1 := by rw [hl3, hl2, hl1]
  have h5 : melEnergies? sp fbk = none :=
    melEnergies?_none sp fbk hfl (fun r hr => by rw [hfr r hr, hsp]; omega)
  rw [extractMFCC]
  simp [h1, h2, h3, h4, h5]

/-- **C9.** extractMFCC performs only in-bounds accesses when the input frame's
length equals the frame_length argument (modelled: the Option-monad embedding
returns some). The claim's second half — that ANY longer frame makes the mel
accumulation index filterbank rows out of bounds — holds exactly when
frame_length / 2 < frame.size() / 2; a frame longer by one sample with even
frame_length still stays in bounds, so the amended out-of-bounds condition is
the division inequality, not mere length excess. -/
theorem claim9_mfcc_bounds :
    (∀ (x : List ℝ) (L c : ℕ), x.length = L → (extractMFCC x L c).isSome) ∧
    (∀ (x : List ℝ) (L c : ℕ), L / 2 < x.length / 2 → extractMFCC x L c = none) := by
  constructor
  · intro x L c h
    exact extractMFCC_isSome_of x L c (by omega)
  · intro x L c h
    exact extractMFCC_none_of x L c h

/-- Witness for C9: a frame of length 2 with frame_length 2 succeeds; a frame of
length 4 with frame_length 2 hits the out-of-bounds row access. -/
theorem claim9_witness :
    (extractMFCC [(1:ℝ), 1] 2 13).isSome ∧ extractMFCC [(0:ℝ), 0, 0, 0] 2 13 = none :=
  ⟨claim9_mfcc_bounds.1 [(1:ℝ), 1] 2 13 (by norm_num),
   claim9_mfcc_bounds.2 [(0:ℝ), 0, 0, 0] 2 13 (by norm_num)⟩

/-- Counterexample to C9 as stated: a frame of length 3 is strictly longer than
frame_length 2, yet every access in extractMFCC stays in bounds, because
3 / 2 = 1 = 2 / 2 keeps the spectrum within each filterbank row. -/
theorem claim9_counterexample :
    (2:ℕ) < ([(0:ℝ), 0, 0]).length ∧ (extractMFCC [(0:ℝ), 0, 0] 2 13).isSome :=
  ⟨by norm_num, extractMFCC_isSome_of _ 2 13 (by norm_num)⟩
